import Mathlib

/-!
# Inverted index (`invertedIndex.c`): shallow embedding and verification

Modelling conventions.

* A C string is the list of its bytes before the terminating NUL (`CString`).
* `double` values (term frequencies, TF-IDF sums) are idealised as elements of a
  linear ordered field `K`; `+`, `/`, `*`, `<`, `>` are the field operations.
  Rounding, infinities and NaN are not modelled.
* `log10` comes from `<math.h>`; it is a parameter `log10 : K → K`.
* Singly linked lists (`FileList`, `TfIdfList`) are Lean lists of their nodes, `NULL`
  is `[]`; the tree `InvertedIndexBST` is an inductive type, `NULL` is `nil`.
  Destructive updates become functions returning the updated structure.
* `malloc` failure (`exit`) and the fixed `MAX`-sized buffers are not modelled.
-/

set_option linter.unusedSectionVars false
set_option linter.unusedVariables false

namespace InvertedIndex

/-- C string: the bytes before the terminating NUL. -/
abbrev CString := List Nat

/-- Node of a `FileList`: `filename`, `tf` (the `next` link is the list tail). -/
structure FileListNode (K : Type) where
  filename : CString
  tf : K
deriving DecidableEq, Repr

/-- Node of a `TfIdfList`: `filename`, `tfIdfSum` (the `next` link is the list tail). -/
structure TfIdfNode (K : Type) where
  filename : CString
  tfIdfSum : K
deriving DecidableEq, Repr

/-- Tree `InvertedIndexBST`: `NULL` or a node with `word`, `fileList`, `left`, `right`. -/
inductive InvertedIndexBST (K : Type) where
  | nil : InvertedIndexBST K
  | node (word : CString) (fileList : List (FileListNode K))
      (left right : InvertedIndexBST K) : InvertedIndexBST K
deriving DecidableEq, Repr

/-- Library `strcmp`: bytewise lexicographic comparison. Only the sign of the result is
specified by C and only the sign is used by the program; the model returns `-1`, `0`, `1`. -/
def strcmp : CString → CString → Int
  | [], [] => 0
  | [], _ :: _ => -1
  | _ :: _, [] => 1
  | a :: as, b :: bs => if a < b then -1 else if b < a then 1 else strcmp as bs

section Index

variable {K : Type} [LinearOrderedField K]

/-- `BSTreeNew`: the empty tree. -/
def BSTreeNew : InvertedIndexBST K := InvertedIndexBST.nil

/-- `newFileNode`: a fresh node holding `filename` and `tf`. -/
def newFileNode (filename : CString) (tf : K) : FileListNode K := ⟨filename, tf⟩

/-- The `while` loop of `InsertFileNode`. `curr` is the node the loop stands on, `rest` is
`curr->next` and the following nodes; the result is the list from `curr` on.
The loop condition `strcmp(filename, curr->filename) > 0` is re-tested on every round. -/
def InsertFileNodeLoop (filename : CString) (tf : K) :
    FileListNode K → List (FileListNode K) → List (FileListNode K)
  | curr, [] => [curr, newFileNode filename tf]
  | curr, next :: rest =>
    if strcmp filename curr.filename > 0 then
      -- prev = curr; curr = curr->next
      if strcmp filename next.filename = 0 then curr :: next :: rest
      else if strcmp filename next.filename < 0 then
        curr :: newFileNode filename tf :: next :: rest
      else curr :: InsertFileNodeLoop filename tf next rest
    else
      -- loop left with curr->next != NULL: `curr->next = newFileNode(...)` overwrites the link
      [curr, newFileNode filename tf]

/-- `InsertFileNode`. -/
def InsertFileNode (fileNode : List (FileListNode K)) (filename : CString) (tf : K) :
    List (FileListNode K) :=
  match fileNode with
  | [] => [newFileNode filename tf]
  | head :: rest =>
    if strcmp filename head.filename = 0 then head :: rest
    else if strcmp filename head.filename < 0 then newFileNode filename tf :: head :: rest
    else InsertFileNodeLoop filename tf head rest

/-- `newTreeNode`: a leaf node for `word` whose list is `InsertFileNode(fileNode, ...)`. -/
def newTreeNode (fileNode : List (FileListNode K)) (word filename : CString) (tf : K) :
    InvertedIndexBST K :=
  InvertedIndexBST.node word (InsertFileNode fileNode filename tf)
    InvertedIndexBST.nil InvertedIndexBST.nil

/-- The `while (curr != NULL)` loop of `InsertTreeNode`: every node whose filename equals
`filename` gets `tf += 1 / totalWords`. -/
def bumpTf (filename : CString) (totalWords : K) :
    List (FileListNode K) → List (FileListNode K)
  | [] => []
  | curr :: rest =>
    (if strcmp filename curr.filename = 0 then
        { curr with tf := curr.tf + 1 / totalWords } else curr)
      :: bumpTf filename totalWords rest

/-- `InsertTreeNode`. -/
def InsertTreeNode : InvertedIndexBST K → CString → CString → K → K → InvertedIndexBST K
  | InvertedIndexBST.nil, word, filename, tf, _ => newTreeNode [] word filename tf
  | InvertedIndexBST.node rword fileList left right, word, filename, tf, totalWords =>
    if strcmp word rword < 0 then
      InvertedIndexBST.node rword fileList
        (InsertTreeNode left word filename tf totalWords) right
    else if strcmp word rword > 0 then
      InvertedIndexBST.node rword fileList left
        (InsertTreeNode right word filename tf totalWords)
    else
      InvertedIndexBST.node rword
        (InsertFileNode (bumpTf filename totalWords fileList) filename tf) left right

/-- `wordCounter`: the number of nodes of a file list, as a `double`. -/
def wordCounter : List (FileListNode K) → K
  | [] => 0
  | _ :: rest => wordCounter rest + 1

/-- `newTfIdfNode`: a fresh node holding `filename` and `tfIdf`. -/
def newTfIdfNode (filename : CString) (tfIdf : K) : TfIdfNode K := ⟨filename, tfIdf⟩

/-- `insertTfIdfNode`: insert before the first node with a strictly smaller sum. -/
def insertTfIdfNode : List (TfIdfNode K) → CString → K → List (TfIdfNode K)
  | [], filename, tfIdf => [newTfIdfNode filename tfIdf]
  | head :: rest, filename, tfIdf =>
    if tfIdf > head.tfIdfSum then newTfIdfNode filename tfIdf :: head :: rest
    else head :: insertTfIdfNode rest filename tfIdf

/-- The `while (curr != NULL)` loop of `calculateTfIdf`, `curr` running over the file list
and `list` being the list built so far. -/
def calculateTfIdfLoop (log10 : K → K) (D : Int) (frequency : K) :
    List (FileListNode K) → List (TfIdfNode K) → List (TfIdfNode K)
  | [], list => list
  | curr :: rest, list =>
    calculateTfIdfLoop log10 D frequency rest
      (insertTfIdfNode list curr.filename (curr.tf * log10 ((D : K) / frequency)))

/-- `calculateTfIdf`. -/
def calculateTfIdf (log10 : K → K) :
    InvertedIndexBST K → CString → Int → List (TfIdfNode K)
  | InvertedIndexBST.nil, _, _ => []
  | InvertedIndexBST.node word fileList left right, searchWord, D =>
    let list : List (TfIdfNode K) :=
      if strcmp searchWord word = 0 then
        calculateTfIdfLoop log10 D (wordCounter fileList) fileList []
      else []
    if strcmp searchWord word < 0 then calculateTfIdf log10 left searchWord D
    else if strcmp searchWord word > 0 then calculateTfIdf log10 right searchWord D
    else list

/-- The inner `while (prev->next != NULL)` loop of `duplicateRemove` for the node `curr`
with name `filename`: `sum` is `curr->tfIdfSum` so far, the list is what follows `prev`.
Returns the final `curr->tfIdfSum` and the nodes left after `prev`. -/
def duplicateRemoveInner (filename : CString) :
    K → List (TfIdfNode K) → K × List (TfIdfNode K)
  | sum, [] => (sum, [])
  | sum, next :: rest =>
    if strcmp filename next.filename = 0 then
      duplicateRemoveInner filename (sum + next.tfIdfSum) rest
    else
      ((duplicateRemoveInner filename sum rest).1,
        next :: (duplicateRemoveInner filename sum rest).2)

/-- `duplicateRemove`: every node absorbs the sums of the later nodes with its filename,
which are unlinked. -/
def duplicateRemove : List (TfIdfNode K) → List (TfIdfNode K)
  | [] => []
  | curr :: rest =>
    { curr with tfIdfSum := (duplicateRemoveInner curr.filename curr.tfIdfSum rest).1 }
      :: duplicateRemove (duplicateRemoveInner curr.filename curr.tfIdfSum rest).2
termination_by l => l.length
decreasing_by
  have key : ∀ (f : CString) (l : List (TfIdfNode K)) (s : K),
      (duplicateRemoveInner f s l).2.length ≤ l.length := by
    intro f l
    induction l with
    | nil => intro _; simp [duplicateRemoveInner]
    | cons n r ih =>
      intro s
      unfold duplicateRemoveInner
      split
      · exact Nat.le_succ_of_le (ih _)
      · simpa using ih s
  have h := key curr.filename rest curr.tfIdfSum
  simp only [List.length_cons]
  omega

/-- `nodeSwap`: relink so that `node2` comes first, followed by `node1` and by what
followed `node2`. -/
def nodeSwap (node1 node2 : TfIdfNode K) (rest : List (TfIdfNode K)) : List (TfIdfNode K) :=
  node2 :: node1 :: rest

/-- `descendingSort` together with the fact that it relinks nodes without creating or
dropping any (needed for the second recursive call to be on a shorter list). -/
def descendingSortAux :
    (head : List (TfIdfNode K)) → { r : List (TfIdfNode K) // r.length = head.length }
  | [] => ⟨[], rfl⟩
  | [a] => ⟨[a], rfl⟩
  | a :: b :: rest =>
    -- first test: `head = nodeSwap(head, head->next)` when `head < head->next`
    let x := if a.tfIdfSum < b.tfIdfSum then b else a
    let y := if a.tfIdfSum < b.tfIdfSum then a else b
    -- `head->next = descendingSort(head->next)`
    match descendingSortAux (y :: rest) with
    | ⟨[], _⟩ => ⟨[x], by simp_all⟩
    | ⟨z :: t, h⟩ =>
      if x.tfIdfSum < z.tfIdfSum then
        -- second swap, then `head->next = descendingSort(head->next)` again
        have hlt : t.length < rest.length + 1 := by
          simp only [List.length_cons] at h
          omega
        match descendingSortAux (x :: t) with
        | ⟨s, hs⟩ => ⟨z :: s, by simp only [List.length_cons] at h hs ⊢; omega⟩
      else ⟨x :: z :: t, by simp only [List.length_cons] at h ⊢; omega⟩
termination_by head => head.length

/-- `descendingSort`. -/
def descendingSort (head : List (TfIdfNode K)) : List (TfIdfNode K) :=
  (descendingSortAux head).1

/-- `listCombine`. -/
def listCombine (head1 head2 : List (TfIdfNode K)) : List (TfIdfNode K) :=
  if head1 = [] ∨ head2 = [] then head1
  else descendingSort (duplicateRemove (head1 ++ head2))

/-- The `while (searchWords[i] != NULL)` loop of `retrieve` with its two variables
`originalList` and `appendList`; the value is `originalList` at loop exit. -/
def retrieveLoop (log10 : K → K) (tree : InvertedIndexBST K) (D : Int) :
    List CString → List (TfIdfNode K) → List (TfIdfNode K) → List (TfIdfNode K)
  | [], originalList, _ => originalList
  | keyWord :: rest, _, appendList =>
    retrieveLoop log10 tree D rest
      (listCombine (calculateTfIdf log10 tree keyWord D) appendList)
      (listCombine (calculateTfIdf log10 tree keyWord D) appendList)

/-- `retrieve`; `searchWords` is the NULL-terminated array as a list. -/
def retrieve (log10 : K → K) (tree : InvertedIndexBST K) (searchWords : List CString)
    (D : Int) : List (TfIdfNode K) :=
  match tree with
  | InvertedIndexBST.nil => []
  | InvertedIndexBST.node _ _ _ _ => retrieveLoop log10 tree D searchWords [] []

/-- `printInOrder`, as the sequence of lines written: for each node in infix order its word
and (`fileNodePrint`) its file-list entries from head to tail. -/
def printInOrder : InvertedIndexBST K → List (CString × List (FileListNode K))
  | InvertedIndexBST.nil => []
  | InvertedIndexBST.node word fileList left right =>
    printInOrder left ++ (word, fileList) :: printInOrder right

end Index

/-- Body of the `for` loop of `normaliseWord` on one byte: blank and newline become NUL,
capital letters are lowered (`tolower`). -/
def normaliseByte (c : Nat) : Nat :=
  let c1 := if c = 32 then 0 else c
  let c2 := if c1 = 10 then 0 else c1
  if 65 ≤ c2 ∧ c2 ≤ 90 then c2 + 32 else c2

/-- The C string held by a buffer: the bytes before the first NUL. -/
def bufferString (buf : List Nat) : CString := buf.takeWhile (fun c => c != 0)

/-- `normaliseWord`. After the loop `i` is the length; `i--` makes it the index of the last
byte, which the `switch` overwrites with NUL when it is `.`, `,`, `?` or `;`.
For the empty string `i` becomes `-1` and `str[i]` is read outside the buffer: `none`. -/
def normaliseWord (str : CString) : Option CString :=
  match (str.map normaliseByte).getLast? with
  | none => none
  | some c =>
    if c = 46 ∨ c = 44 ∨ c = 63 ∨ c = 59 then
      some (bufferString ((str.map normaliseByte).dropLast ++ [0]))
    else some (bufferString (str.map normaliseByte))

/-- C library `isspace` in the C locale: blank, `\t`, `\n`, `\v`, `\f`, `\r`. -/
def isspace (c : Nat) : Bool := c == 32 || (9 ≤ c && c ≤ 13)

/-- What `fscanf("%s")` can store as a token: a non-empty string without white space
(and, being a C string, without NUL). -/
def IsToken (tok : CString) : Prop := tok ≠ [] ∧ ∀ c ∈ tok, c ≠ 0 ∧ isspace c = false

instance (tok : CString) : Decidable (IsToken tok) := by
  unfold IsToken; infer_instance

/-- Specification wording, "lower-casing letters": a letter `A`-`Z` becomes its lower-case
letter, every other byte stays. -/
def lowerCase (c : Nat) : Nat := if 65 ≤ c ∧ c ≤ 90 then c + 32 else c

/-- Specification wording of the normal form of a token: every letter lower-cased and, when
the last character of the token is one of `.`, `,`, `?`, `;`, that one last character
removed. -/
def normalisedSpec (t : CString) : CString :=
  match t.getLast? with
  | none => []
  | some c =>
    if c = 46 ∨ c = 44 ∨ c = 63 ∨ c = 59 then t.dropLast.map lowerCase
    else t.map lowerCase

/-- `getWordTotal`: the number of tokens `fscanf("%s")` reads from the file. -/
def getWordTotal (tokens : List CString) : Nat := tokens.length

section Builder

variable {K : Type} [LinearOrderedField K]

/-- Inner `while` loop of `generateInvertedIndex` over the tokens of one file. -/
def generateInvertedIndexFile (fileName : CString) (numWordsInFile : K) :
    InvertedIndexBST K → List CString → Option (InvertedIndexBST K)
  | tree, [] => some tree
  | tree, originalWord :: rest =>
    match normaliseWord originalWord with
    | none => none
    | some normedwordName =>
      generateInvertedIndexFile fileName numWordsInFile
        (InsertTreeNode tree normedwordName fileName (1 / numWordsInFile) numWordsInFile)
        rest

/-- Outer `while` loop of `generateInvertedIndex` over the file names of the collection;
each file is given with the token stream read from it. -/
def generateInvertedIndexLoop :
    InvertedIndexBST K → List (CString × List CString) → Option (InvertedIndexBST K)
  | tree, [] => some tree
  | tree, (origfileName, tokens) :: rest =>
    match generateInvertedIndexFile origfileName ((getWordTotal tokens : Nat) : K)
        tree tokens with
    | none => none
    | some tree1 => generateInvertedIndexLoop tree1 rest

/-- `generateInvertedIndex`: the collection file is the list of its file names, each with
the tokens of that file. -/
def generateInvertedIndex (collection : List (CString × List CString)) :
    Option (InvertedIndexBST K) :=
  generateInvertedIndexLoop BSTreeNew collection

end Builder

section Predicates

variable {K : Type} [LinearOrderedField K]

/-- The words of the tree's nodes, in infix order. -/
def keys (t : InvertedIndexBST K) : List CString := (printInOrder t).map Prod.fst

/-- BST invariant: at every node the words of the left subtree are smaller than the node's
word and the words of the right subtree are greater, in `strcmp` order. -/
def BSTInv : InvertedIndexBST K → Prop
  | InvertedIndexBST.nil => True
  | InvertedIndexBST.node word _ left right =>
    (∀ k ∈ keys left, strcmp k word < 0) ∧ (∀ k ∈ keys right, strcmp word k < 0) ∧
      BSTInv left ∧ BSTInv right

/-- Decision procedure for `BSTInv`. -/
def BSTInv.decide : (t : InvertedIndexBST K) → Decidable (BSTInv t)
  | InvertedIndexBST.nil => isTrue trivial
  | InvertedIndexBST.node word _ left right =>
    have := BSTInv.decide left
    have := BSTInv.decide right
    inferInstanceAs (Decidable ((∀ k ∈ keys left, strcmp k word < 0) ∧
      (∀ k ∈ keys right, strcmp word k < 0) ∧ BSTInv left ∧ BSTInv right))

instance (t : InvertedIndexBST K) : Decidable (BSTInv t) := BSTInv.decide t

/-- A file list is strictly ascending by filename in `strcmp` order. -/
def Ascending (fileList : List (FileListNode K)) : Prop :=
  fileList.Pairwise (fun a b => strcmp a.filename b.filename < 0)

instance (fileList : List (FileListNode K)) : Decidable (Ascending fileList) := by
  unfold Ascending; infer_instance

/-- Frequency-list invariant: every node's file list is non-empty and strictly ascending. -/
def FreqInv (t : InvertedIndexBST K) : Prop :=
  ∀ line ∈ printInOrder t, line.2 ≠ [] ∧ Ascending line.2

instance (t : InvertedIndexBST K) : Decidable (FreqInv t) := by
  unfold FreqInv; infer_instance

/-- No node's file list holds a filename twice. -/
def NoDuplicateFile (t : InvertedIndexBST K) : Prop :=
  ∀ line ∈ printInOrder t, (line.2.map FileListNode.filename).Nodup

/-- A ranked list has sums that do not increase from head to tail. -/
def Descending (l : List (TfIdfNode K)) : Prop :=
  l.Pairwise (fun a b => b.tfIdfSum ≤ a.tfIdfSum)

/-- The descent of `calculateTfIdf` (the same comparisons as `InsertTreeNode`): the file
list of the node reached for `searchWord`, if any. -/
def findNode : InvertedIndexBST K → CString → Option (List (FileListNode K))
  | InvertedIndexBST.nil, _ => none
  | InvertedIndexBST.node word fileList left right, searchWord =>
    if strcmp searchWord word < 0 then findNode left searchWord
    else if strcmp searchWord word > 0 then findNode right searchWord
    else some fileList

/-- The ranked entry the scorer emits for one file-list entry: the document with
`tf * log10(D / df)`. -/
def scoreEntry (log10 : K → K) (D : Int) (df : Nat) (e : FileListNode K) : TfIdfNode K :=
  ⟨e.filename, e.tf * log10 ((D : K) / (df : K))⟩

/-- The total of the sums of the entries of a ranked list that carry the document `d`. -/
def scoreOf (d : CString) (l : List (TfIdfNode K)) : K :=
  ((l.filter (fun e => e.filename = d)).map TfIdfNode.tfIdfSum).sum

/-- The TF-IDF weight of document `d` for the word `w`: `tf * log10(D / df)` when the file
list of the node reached for `w` has an entry for `d` (`df` is the length of that list),
and `0` when there is no such node or no such entry. -/
def termWeight (log10 : K → K) (t : InvertedIndexBST K) (D : Int) (w d : CString) : K :=
  match findNode t w with
  | none => 0
  | some fl =>
    match fl.find? (fun e => e.filename = d) with
    | none => 0
    | some e => e.tf * log10 ((D : K) / (fl.length : K))

/-- The entry `e` after `tf += 1 / totalWords` when it is the entry of `filename`. -/
def bumpEntry (filename : CString) (totalWords : K) (e : FileListNode K) : FileListNode K :=
  if e.filename = filename then ⟨e.filename, e.tf + 1 / totalWords⟩ else e

/-- The line of `word` with `bumpEntry` applied to its entries; other lines unchanged. -/
def bumpLine (word filename : CString) (totalWords : K)
    (line : CString × List (FileListNode K)) : CString × List (FileListNode K) :=
  if line.1 = word then (line.1, line.2.map (bumpEntry filename totalWords)) else line

/-- Entries of a ranked list with equal sums stand in ascending filename order. -/
def TieAscending (l : List (TfIdfNode K)) : Prop :=
  l.Pairwise (fun a b => a.tfIdfSum = b.tfIdfSum → strcmp a.filename b.filename < 0)

/-- `fileNodePrint`: the `filename (tf)` items written for a file list, head first. -/
def fileNodePrint : List (FileListNode K) → List (CString × K)
  | [] => []
  | n :: rest => (n.filename, n.tf) :: fileNodePrint rest

/-- `printInvertedIndex`, as the lines written to the file: `printInOrder` with each node's
entries written by `fileNodePrint` (nothing is written for the empty tree). -/
def printInvertedIndex (tree : InvertedIndexBST K) : List (CString × List (CString × K)) :=
  (printInOrder tree).map (fun line => (line.1, fileNodePrint line.2))

/-- One call `InsertTreeNode(_, word, filename, tf, totalWords)`. -/
structure InsertCall (K : Type) where
  word : CString
  filename : CString
  tf : K
  totalWords : K

/-- The tree obtained from the empty tree by the given calls of `InsertTreeNode`, in order. -/
def insertAll (calls : List (InsertCall K)) : InvertedIndexBST K :=
  calls.foldl (fun t c => InsertTreeNode t c.word c.filename c.tf c.totalWords) BSTreeNew

/-- The `tf` stored in a file list for the document `d`, if the list has an entry for it
(the first one from the head). -/
def tfOf (fl : List (FileListNode K)) (d : CString) : Option K :=
  (fl.find? (fun e => e.filename = d)).map FileListNode.tf

/-- The `tf` the index stores for word `w` and document `d`: the entry for `d` in the file
list of the node the descent reaches for `w`. -/
def tfAt (t : InvertedIndexBST K) (w d : CString) : Option K :=
  match findNode t w with
  | none => none
  | some fl => tfOf fl d

/-- The calls of `InsertTreeNode` the builder makes for one file: one per token that
`normaliseWord` maps to a word, with `tf = 1 / numWordsInFile`. -/
def fileCalls (fileName : CString) (numWordsInFile : K) (tokens : List CString) :
    List (InsertCall K) :=
  tokens.filterMap (fun tok =>
    (normaliseWord tok).map (fun w => ⟨w, fileName, 1 / numWordsInFile, numWordsInFile⟩))

/-- The calls of `InsertTreeNode` the builder makes for the whole collection, in order. -/
def collectionCalls (collection : List (CString × List CString)) : List (InsertCall K) :=
  collection.flatMap (fun doc => fileCalls doc.1 ((getWordTotal doc.2 : Nat) : K) doc.2)

end Predicates

/-- A small index used in examples: word `a` in document `1`; word `b` in documents `1`
and `2`. -/
def exampleTree : InvertedIndexBST ℚ :=
  InvertedIndexBST.node [97] [⟨[1], 1⟩] InvertedIndexBST.nil
    (InvertedIndexBST.node [98] [⟨[1], 1 / 2⟩, ⟨[2], 1⟩] InvertedIndexBST.nil
      InvertedIndexBST.nil)

/-! ## Properties of `strcmp` -/

theorem strcmp_self (a : CString) : strcmp a a = 0 := by
  induction a with
  | nil => rfl
  | cons x xs ih => simp [strcmp, ih]

theorem strcmp_eq_zero {a b : CString} : strcmp a b = 0 ↔ a = b := by
  constructor
  · intro h
    induction a generalizing b with
    | nil => cases b <;> simp_all [strcmp]
    | cons x xs ih =>
      cases b with
      | nil => simp [strcmp] at h
      | cons y ys =>
        simp only [strcmp] at h
        split_ifs at h with h1 h2
        · omega
        · have hxy : x = y := by omega
          rw [hxy, ih h]
  · rintro rfl
    exact strcmp_self a

theorem strcmp_pos_iff {a b : CString} : 0 < strcmp a b ↔ strcmp b a < 0 := by
  induction a generalizing b with
  | nil => cases b <;> simp [strcmp]
  | cons x xs ih =>
    cases b with
    | nil => simp [strcmp]
    | cons y ys =>
      simp only [strcmp]
      split_ifs <;> first | omega | simp | exact ih

theorem strcmp_trans {a b c : CString} (hab : strcmp a b < 0) (hbc : strcmp b c < 0) :
    strcmp a c < 0 := by
  induction a generalizing b c with
  | nil =>
    cases c with
    | nil => cases b <;> simp [strcmp] at hab hbc
    | cons z zs => simp [strcmp]
  | cons x xs ih =>
    cases b with
    | nil => simp [strcmp] at hab
    | cons y ys =>
      cases c with
      | nil => simp [strcmp] at hbc
      | cons z zs =>
        simp only [strcmp] at hab hbc ⊢
        split_ifs at hab hbc ⊢ <;> first | omega | exact ih hab hbc

theorem strcmp_irrefl (a : CString) : ¬ strcmp a a < 0 := by
  simp [strcmp_self]

theorem strcmp_tricho {a b : CString} (h1 : ¬ strcmp a b < 0) (h2 : ¬ strcmp a b > 0) :
    a = b :=
  strcmp_eq_zero.mp (by omega)

theorem strcmp_asymm {a b : CString} (h : strcmp a b < 0) : ¬ strcmp b a < 0 := fun h2 =>
  strcmp_irrefl a (strcmp_trans h h2)

/-! ## The tree: keys and the BST invariant -/

section TreeFacts

variable {K : Type} [LinearOrderedField K]

theorem keys_nil : keys (InvertedIndexBST.nil : InvertedIndexBST K) = [] := rfl

theorem keys_node (w : CString) (fl : List (FileListNode K)) (l r : InvertedIndexBST K) :
    keys (InvertedIndexBST.node w fl l r) = keys l ++ w :: keys r := by
  simp [keys, printInOrder]

theorem mem_keys_InsertTreeNode (t : InvertedIndexBST K) (w f : CString) (tf tw : K)
    (k : CString) : k ∈ keys (InsertTreeNode t w f tf tw) ↔ k = w ∨ k ∈ keys t := by
  induction t with
  | nil => simp [InsertTreeNode, newTreeNode, keys_node, keys_nil]
  | node rw fl l r ihl ihr =>
    unfold InsertTreeNode
    split_ifs with h1 h2
    · simp only [keys_node, List.mem_append, List.mem_cons, ihl]; tauto
    · simp only [keys_node, List.mem_append, List.mem_cons, ihr]; tauto
    · have hw : w = rw := strcmp_tricho h1 h2
      subst hw
      simp only [keys_node, List.mem_append, List.mem_cons]; tauto

theorem BSTInv_InsertTreeNode (t : InvertedIndexBST K) (w f : CString) (tf tw : K)
    (h : BSTInv t) : BSTInv (InsertTreeNode t w f tf tw) := by
  induction t with
  | nil =>
    simp [InsertTreeNode, newTreeNode, BSTInv, keys_nil]
  | node rw fl l r ihl ihr =>
    obtain ⟨hl, hr, hbl, hbr⟩ := h
    unfold InsertTreeNode
    split_ifs with h1 h2
    · refine ⟨?_, hr, ihl hbl, hbr⟩
      intro k hk
      rcases (mem_keys_InsertTreeNode l w f tf tw k).mp hk with rfl | hk
      · exact h1
      · exact hl k hk
    · refine ⟨hl, ?_, hbl, ihr hbr⟩
      intro k hk
      rcases (mem_keys_InsertTreeNode r w f tf tw k).mp hk with rfl | hk
      · exact strcmp_pos_iff.mp h2
      · exact hr k hk
    · exact ⟨hl, hr, hbl, hbr⟩

theorem BSTInv_keys_sorted (t : InvertedIndexBST K) (h : BSTInv t) :
    (keys t).Pairwise (fun a b => strcmp a b < 0) := by
  induction t with
  | nil => simp [keys_nil]
  | node rw fl l r ihl ihr =>
    obtain ⟨hl, hr, hbl, hbr⟩ := h
    rw [keys_node, List.pairwise_append]
    refine ⟨ihl hbl, List.pairwise_cons.mpr ⟨hr, ihr hbr⟩, ?_⟩
    intro a ha b hb
    rcases List.mem_cons.mp hb with rfl | hb
    · exact hl a ha
    · exact strcmp_trans (hl a ha) (hr b hb)

theorem BSTInv_keys_nodup (t : InvertedIndexBST K) (h : BSTInv t) : (keys t).Nodup := by
  refine (BSTInv_keys_sorted t h).imp ?_
  intro a b hab heq
  subst heq
  exact strcmp_irrefl a hab

theorem insertAll_snoc (calls : List (InsertCall K)) (c : InsertCall K) :
    insertAll (calls ++ [c]) =
      InsertTreeNode (insertAll calls) c.word c.filename c.tf c.totalWords := by
  simp [insertAll, List.foldl_append]

/-- Induction principle for trees built by `InsertTreeNode` calls. -/
theorem insertAll_induction (P : InvertedIndexBST K → Prop) (h0 : P BSTreeNew)
    (hstep : ∀ t (c : InsertCall K), P t →
      P (InsertTreeNode t c.word c.filename c.tf c.totalWords))
    (calls : List (InsertCall K)) : P (insertAll calls) := by
  induction calls using List.reverseRecOn with
  | nil => exact h0
  | append_singleton cs c ih =>
    rw [insertAll_snoc]
    exact hstep _ c ih

end TreeFacts

/-! ## File lists -/

section FileListFacts

variable {K : Type} [LinearOrderedField K]

theorem InsertFileNodeLoop_eq (f : CString) (tf : K) (curr : FileListNode K)
    (rest : List (FileListNode K)) (h : strcmp f curr.filename > 0) :
    InsertFileNodeLoop f tf curr rest = curr :: InsertFileNode rest f tf := by
  cases rest with
  | nil => rfl
  | cons next rest =>
    simp only [InsertFileNodeLoop, InsertFileNode, if_pos h]
    split_ifs <;> rfl

theorem InsertFileNode_nil (f : CString) (tf : K) :
    InsertFileNode ([] : List (FileListNode K)) f tf = [newFileNode f tf] := rfl

/-- `InsertFileNode` as a recursion on the list. -/
theorem InsertFileNode_cons (f : CString) (tf : K) (head : FileListNode K)
    (rest : List (FileListNode K)) :
    InsertFileNode (head :: rest) f tf =
      if strcmp f head.filename = 0 then head :: rest
      else if strcmp f head.filename < 0 then newFileNode f tf :: head :: rest
      else head :: InsertFileNode rest f tf := by
  simp only [InsertFileNode]
  split_ifs with h1 h2
  · rfl
  · rfl
  · exact InsertFileNodeLoop_eq f tf head rest (by omega)

theorem InsertFileNode_ne_nil (l : List (FileListNode K)) (f : CString) (tf : K) :
    InsertFileNode l f tf ≠ [] := by
  cases l with
  | nil => simp [InsertFileNode_nil]
  | cons h r =>
    rw [InsertFileNode_cons]
    split_ifs <;> simp

theorem mem_InsertFileNode (l : List (FileListNode K)) (f : CString) (tf : K)
    (e : FileListNode K) (he : e ∈ InsertFileNode l f tf) : e = newFileNode f tf ∨ e ∈ l := by
  induction l with
  | nil => simpa [InsertFileNode_nil] using he
  | cons h r ih =>
    rw [InsertFileNode_cons] at he
    split_ifs at he with h1 h2
    · exact Or.inr he
    · rcases List.mem_cons.mp he with rfl | he
      · exact Or.inl rfl
      · exact Or.inr he
    · rcases List.mem_cons.mp he with rfl | he
      · exact Or.inr (List.mem_cons_self _ _)
      · rcases ih he with h3 | h3
        · exact Or.inl h3
        · exact Or.inr (List.mem_cons_of_mem _ h3)

theorem Ascending_InsertFileNode (l : List (FileListNode K)) (f : CString) (tf : K)
    (h : Ascending l) : Ascending (InsertFileNode l f tf) := by
  induction l with
  | nil => simp [InsertFileNode_nil, Ascending]
  | cons a r ih =>
    have ha := List.pairwise_cons.mp h
    rw [InsertFileNode_cons]
    split_ifs with h1 h2
    · exact h
    · refine List.pairwise_cons.mpr ⟨?_, h⟩
      intro b hb
      rcases List.mem_cons.mp hb with rfl | hb
      · exact h2
      · exact strcmp_trans h2 (ha.1 b hb)
    · refine List.pairwise_cons.mpr ⟨?_, ih ha.2⟩
      intro b hb
      rcases mem_InsertFileNode r f tf b hb with rfl | hb
      · exact strcmp_pos_iff.mp (show 0 < strcmp f a.filename by omega)
      · exact ha.1 b hb

theorem map_filename_bumpTf (f : CString) (tw : K) (l : List (FileListNode K)) :
    (bumpTf f tw l).map FileListNode.filename = l.map FileListNode.filename := by
  induction l with
  | nil => rfl
  | cons a r ih =>
    simp only [bumpTf, List.map_cons, ih]
    split_ifs <;> rfl

theorem Ascending_iff_map (l : List (FileListNode K)) :
    Ascending l ↔ (l.map FileListNode.filename).Pairwise (fun a b => strcmp a b < 0) := by
  simp [Ascending, List.pairwise_map]

theorem Ascending_bumpTf (f : CString) (tw : K) (l : List (FileListNode K))
    (h : Ascending l) : Ascending (bumpTf f tw l) := by
  rw [Ascending_iff_map] at h ⊢
  rwa [map_filename_bumpTf]

theorem Ascending_nodup (l : List (FileListNode K)) (h : Ascending l) :
    (l.map FileListNode.filename).Nodup := by
  rw [Ascending_iff_map] at h
  refine h.imp ?_
  intro a b hab heq
  subst heq
  exact strcmp_irrefl a hab

theorem FreqInv_nil : FreqInv (InvertedIndexBST.nil : InvertedIndexBST K) := by
  simp [FreqInv, printInOrder]

theorem FreqInv_node (w : CString) (fl : List (FileListNode K)) (l r : InvertedIndexBST K) :
    FreqInv (InvertedIndexBST.node w fl l r) ↔
      FreqInv l ∧ (fl ≠ [] ∧ Ascending fl) ∧ FreqInv r := by
  simp only [FreqInv, printInOrder, List.mem_append, List.mem_cons]
  constructor
  · intro h
    exact ⟨fun x hx => h x (Or.inl hx), h (w, fl) (Or.inr (Or.inl rfl)),
      fun x hx => h x (Or.inr (Or.inr hx))⟩
  · rintro ⟨h1, h2, h3⟩ x (hx | rfl | hx)
    · exact h1 x hx
    · exact h2
    · exact h3 x hx

theorem FreqInv_InsertTreeNode (t : InvertedIndexBST K) (w f : CString) (tf tw : K)
    (h : FreqInv t) : FreqInv (InsertTreeNode t w f tf tw) := by
  induction t with
  | nil =>
    simp only [InsertTreeNode, newTreeNode]
    rw [FreqInv_node]
    exact ⟨FreqInv_nil, ⟨InsertFileNode_ne_nil _ _ _, by simp [InsertFileNode_nil, Ascending]⟩,
      FreqInv_nil⟩
  | node rw fl l r ihl ihr =>
    obtain ⟨h1, h2, h3⟩ := (FreqInv_node rw fl l r).mp h
    unfold InsertTreeNode
    split_ifs with c1 c2
    · exact (FreqInv_node _ _ _ _).mpr ⟨ihl h1, h2, h3⟩
    · exact (FreqInv_node _ _ _ _).mpr ⟨h1, h2, ihr h3⟩
    · exact (FreqInv_node _ _ _ _).mpr ⟨h1, ⟨InsertFileNode_ne_nil _ _ _,
        Ascending_InsertFileNode _ _ _ (Ascending_bumpTf _ _ _ h2.2)⟩, h3⟩

theorem FreqInv_NoDuplicateFile (t : InvertedIndexBST K) (h : FreqInv t) :
    NoDuplicateFile t := fun line hl => Ascending_nodup _ (h line hl).2

end FileListFacts

/-! ## Ranked lists: sorting -/

section SortFacts

variable {K : Type} [LinearOrderedField K]

theorem descendingSort_nil : descendingSort ([] : List (TfIdfNode K)) = [] := by
  simp [descendingSort, descendingSortAux]

theorem descendingSort_single (a : TfIdfNode K) : descendingSort [a] = [a] := by
  simp [descendingSort, descendingSortAux]

theorem descendingSort_cons_cons (a b : TfIdfNode K) (rest : List (TfIdfNode K)) :
    descendingSort (a :: b :: rest) =
      match descendingSort ((if a.tfIdfSum < b.tfIdfSum then a else b) :: rest) with
      | [] => [if a.tfIdfSum < b.tfIdfSum then b else a]
      | z :: t =>
        if (if a.tfIdfSum < b.tfIdfSum then b else a).tfIdfSum < z.tfIdfSum then
          z :: descendingSort ((if a.tfIdfSum < b.tfIdfSum then b else a) :: t)
        else (if a.tfIdfSum < b.tfIdfSum then b else a) :: z :: t := by
  simp only [descendingSort]
  rw [descendingSortAux]
  simp only []
  split
  · rename_i h1 h2
    simp [h2]
  · rename_i z t h1 h2
    simp only [h2]
    split_ifs <;> rfl

/-- The first test of `descendingSort`: the two leading nodes after the conditional
`nodeSwap`. -/
theorem nodeSwap_first_test (a b : TfIdfNode K) (rest : List (TfIdfNode K)) :
    (if a.tfIdfSum < b.tfIdfSum then nodeSwap a b rest else a :: b :: rest) =
      (if a.tfIdfSum < b.tfIdfSum then b else a) ::
        (if a.tfIdfSum < b.tfIdfSum then a else b) :: rest := by
  split_ifs <;> rfl

theorem descendingSort_spec (n : Nat) : ∀ l : List (TfIdfNode K), l.length = n →
    (descendingSort l).Perm l ∧ Descending (descendingSort l) := by
  induction n using Nat.strong_induction_on with
  | _ n ih =>
    intro l hl
    match l, hl with
    | [], _ => simp [descendingSort_nil, Descending]
    | [a], _ => simp [descendingSort_single, Descending]
    | a :: b :: rest, hl =>
      rw [descendingSort_cons_cons]
      have hxy : ((if a.tfIdfSum < b.tfIdfSum then b else a) ::
          (if a.tfIdfSum < b.tfIdfSum then a else b) :: rest).Perm (a :: b :: rest) := by
        split_ifs
        · exact List.Perm.swap _ _ _
        · exact List.Perm.refl _
      generalize (if a.tfIdfSum < b.tfIdfSum then b else a) = x at hxy ⊢
      generalize (if a.tfIdfSum < b.tfIdfSum then a else b) = y at hxy ⊢
      simp only [List.length_cons] at hl
      obtain ⟨hp, hd⟩ := ih (rest.length + 1) (by omega) (y :: rest) (by simp)
      generalize descendingSort (y :: rest) = s at hp hd
      match s, hp, hd with
      | [], hp, _ => simpa using hp.length_eq
      | z :: t, hp, hd =>
        have hzt := List.pairwise_cons.mp hd
        have hlen : (x :: t).length = rest.length + 1 := by
          have := hp.length_eq
          simp only [List.length_cons] at this ⊢
          omega
        simp only []
        split_ifs with hxz
        · obtain ⟨hp2, hd2⟩ := ih (rest.length + 1) (by omega) (x :: t) hlen
          constructor
          · calc (z :: descendingSort (x :: t)).Perm (z :: x :: t) := hp2.cons z
              _ |>.Perm (x :: z :: t) := List.Perm.swap _ _ _
              _ |>.Perm (x :: y :: rest) := hp.cons x
              _ |>.Perm (a :: b :: rest) := hxy
          · refine List.pairwise_cons.mpr ⟨?_, hd2⟩
            intro e he
            rcases List.mem_cons.mp (hp2.subset he) with rfl | he
            · exact le_of_lt hxz
            · exact hzt.1 e he
        · constructor
          · exact (hp.cons x).trans hxy
          · refine List.pairwise_cons.mpr ⟨?_, hd⟩
            intro e he
            have hzx : z.tfIdfSum ≤ x.tfIdfSum := not_lt.mp hxz
            rcases List.mem_cons.mp he with rfl | he
            · exact hzx
            · exact le_trans (hzt.1 e he) hzx

theorem descendingSort_perm (l : List (TfIdfNode K)) : (descendingSort l).Perm l :=
  (descendingSort_spec l.length l rfl).1

theorem descendingSort_descending (l : List (TfIdfNode K)) :
    Descending (descendingSort l) :=
  (descendingSort_spec l.length l rfl).2

theorem insertTfIdfNode_perm (l : List (TfIdfNode K)) (f : CString) (x : K) :
    (insertTfIdfNode l f x).Perm (newTfIdfNode f x :: l) := by
  induction l with
  | nil => simp [insertTfIdfNode]
  | cons a r ih =>
    simp only [insertTfIdfNode]
    split_ifs
    · exact List.Perm.refl _
    · exact (ih.cons a).trans (List.Perm.swap _ _ _)

theorem insertTfIdfNode_descending (l : List (TfIdfNode K)) (f : CString) (x : K)
    (h : Descending l) : Descending (insertTfIdfNode l f x) := by
  induction l with
  | nil => simp [insertTfIdfNode, Descending]
  | cons a r ih =>
    have ha := List.pairwise_cons.mp h
    simp only [insertTfIdfNode]
    split_ifs with hx
    · refine List.pairwise_cons.mpr ⟨?_, h⟩
      intro e he
      have hax : a.tfIdfSum ≤ x := le_of_lt hx
      rcases List.mem_cons.mp he with rfl | he
      · exact hax
      · exact le_trans (ha.1 e he) hax
    · refine List.pairwise_cons.mpr ⟨?_, ih ha.2⟩
      intro e he
      rcases List.mem_cons.mp ((insertTfIdfNode_perm r f x).subset he) with rfl | he
      · exact not_lt.mp hx
      · exact ha.1 e he

theorem calculateTfIdfLoop_perm (log10 : K → K) (D : Int) (fr : K)
    (fl : List (FileListNode K)) (list : List (TfIdfNode K)) :
    (calculateTfIdfLoop log10 D fr fl list).Perm
      (fl.map (fun e => (⟨e.filename, e.tf * log10 ((D : K) / fr)⟩ : TfIdfNode K)) ++ list) := by
  induction fl generalizing list with
  | nil => simp [calculateTfIdfLoop]
  | cons a r ih =>
    simp only [calculateTfIdfLoop, List.map_cons, List.cons_append]
    refine (ih _).trans ?_
    refine (List.Perm.append_left _ (insertTfIdfNode_perm list _ _)).trans ?_
    exact List.perm_middle

theorem calculateTfIdfLoop_descending (log10 : K → K) (D : Int) (fr : K)
    (fl : List (FileListNode K)) (list : List (TfIdfNode K)) (h : Descending list) :
    Descending (calculateTfIdfLoop log10 D fr fl list) := by
  induction fl generalizing list with
  | nil => simpa [calculateTfIdfLoop] using h
  | cons a r ih =>
    simp only [calculateTfIdfLoop]
    exact ih _ (insertTfIdfNode_descending _ _ _ h)

theorem wordCounter_eq (fl : List (FileListNode K)) : wordCounter fl = (fl.length : K) := by
  induction fl with
  | nil => simp [wordCounter]
  | cons a r ih => simp [wordCounter, ih]

/-- `calculateTfIdf` is the scoring loop run on the file list found by the descent. -/
theorem calculateTfIdf_eq (log10 : K → K) (t : InvertedIndexBST K) (w : CString) (D : Int) :
    calculateTfIdf log10 t w D =
      match findNode t w with
      | none => []
      | some fl => calculateTfIdfLoop log10 D (wordCounter fl) fl [] := by
  induction t with
  | nil => rfl
  | node rw fl l r ihl ihr =>
    simp only [calculateTfIdf, findNode]
    split_ifs with h1 h2 h3
    · exact ihl
    · exact ihr
    · rfl
    · omega

theorem findNode_none_of_not_mem (t : InvertedIndexBST K) (w : CString)
    (h : w ∉ keys t) : findNode t w = none := by
  induction t with
  | nil => rfl
  | node rw fl l r ihl ihr =>
    rw [keys_node] at h
    simp only [List.mem_append, List.mem_cons, not_or] at h
    simp only [findNode]
    split_ifs with h1 h2
    · exact ihl h.1
    · exact ihr h.2.2
    · exact absurd (strcmp_tricho h1 h2) h.2.1

theorem mem_keys_of_mem_printInOrder (t : InvertedIndexBST K) (w : CString)
    (fl : List (FileListNode K)) (h : (w, fl) ∈ printInOrder t) : w ∈ keys t :=
  List.mem_map.mpr ⟨(w, fl), h, rfl⟩

/-- Under the BST invariant the descent reaches the node keyed by the word. -/
theorem findNode_of_mem (t : InvertedIndexBST K) (w : CString) (fl : List (FileListNode K))
    (hb : BSTInv t) (h : (w, fl) ∈ printInOrder t) : findNode t w = some fl := by
  induction t with
  | nil => simp [printInOrder] at h
  | node rw rfl_ l r ihl ihr =>
    obtain ⟨hl, hr, hbl, hbr⟩ := hb
    simp only [printInOrder, List.mem_append, List.mem_cons, Prod.mk.injEq] at h
    simp only [findNode]
    rcases h with h | ⟨rfl, rfl⟩ | h
    · have := hl w (mem_keys_of_mem_printInOrder l w fl h)
      rw [if_pos this]
      exact ihl hbl h
    · simp [strcmp_self]
    · have h2 := hr w (mem_keys_of_mem_printInOrder r w fl h)
      have h3 : 0 < strcmp w rw := strcmp_pos_iff.mpr h2
      rw [if_neg (by omega), if_pos h3]
      exact ihr hbr h

theorem mem_of_findNode (t : InvertedIndexBST K) (w : CString) (fl : List (FileListNode K))
    (h : findNode t w = some fl) : (w, fl) ∈ printInOrder t := by
  induction t with
  | nil => simp [findNode] at h
  | node rw rfl_ l r ihl ihr =>
    simp only [findNode] at h
    simp only [printInOrder, List.mem_append, List.mem_cons, Prod.mk.injEq]
    split_ifs at h with h1 h2
    · exact Or.inl (ihl h)
    · exact Or.inr (Or.inr (ihr h))
    · have hw : w = rw := strcmp_tricho h1 h2
      simp only [Option.some.injEq] at h
      exact Or.inr (Or.inl ⟨hw, h.symm⟩)

theorem calculateTfIdf_descending (log10 : K → K) (t : InvertedIndexBST K) (w : CString)
    (D : Int) : Descending (calculateTfIdf log10 t w D) := by
  rw [calculateTfIdf_eq]
  cases findNode t w with
  | none => exact List.Pairwise.nil
  | some fl => exact calculateTfIdfLoop_descending _ _ _ _ _ List.Pairwise.nil

theorem listCombine_descending (head1 head2 : List (TfIdfNode K)) (h : Descending head1) :
    Descending (listCombine head1 head2) := by
  unfold listCombine
  split_ifs
  · exact h
  · exact descendingSort_descending _

theorem retrieveLoop_descending (log10 : K → K) (t : InvertedIndexBST K) (D : Int)
    (q : List CString) (o a : List (TfIdfNode K)) (h : Descending o) :
    Descending (retrieveLoop log10 t D q o a) := by
  induction q generalizing o a with
  | nil => exact h
  | cons w q ih =>
    simp only [retrieveLoop]
    exact ih _ _ (listCombine_descending _ _ (calculateTfIdf_descending _ _ _ _))

theorem retrieve_descending (log10 : K → K) (t : InvertedIndexBST K) (q : List CString)
    (D : Int) : Descending (retrieve log10 t q D) := by
  cases t with
  | nil => exact List.Pairwise.nil
  | node w fl l r => exact retrieveLoop_descending _ _ _ _ _ _ List.Pairwise.nil

end SortFacts

/-! ## Ranked lists: totals per document and `duplicateRemove` -/

section DuplicateFacts

variable {K : Type} [LinearOrderedField K]

theorem scoreOf_nil (d : CString) : scoreOf d ([] : List (TfIdfNode K)) = 0 := rfl

theorem scoreOf_cons (d : CString) (a : TfIdfNode K) (l : List (TfIdfNode K)) :
    scoreOf d (a :: l) = (if a.filename = d then a.tfIdfSum else 0) + scoreOf d l := by
  unfold scoreOf
  by_cases h : a.filename = d <;> simp [List.filter_cons, h]

theorem scoreOf_append (d : CString) (l1 l2 : List (TfIdfNode K)) :
    scoreOf d (l1 ++ l2) = scoreOf d l1 + scoreOf d l2 := by
  simp [scoreOf, List.filter_append]

theorem scoreOf_perm (d : CString) {l1 l2 : List (TfIdfNode K)} (h : l1.Perm l2) :
    scoreOf d l1 = scoreOf d l2 := by
  unfold scoreOf
  exact ((h.filter _).map _).sum_eq

theorem scoreOf_eq_zero (d : CString) (l : List (TfIdfNode K))
    (h : d ∉ l.map TfIdfNode.filename) : scoreOf d l = 0 := by
  induction l with
  | nil => rfl
  | cons a r ih =>
    simp only [List.map_cons, List.mem_cons, not_or] at h
    rw [scoreOf_cons, ih h.2, if_neg (fun h' => h.1 h'.symm)]
    simp

theorem scoreOf_filter_ne (d f : CString) (l : List (TfIdfNode K)) :
    scoreOf d (l.filter (fun e => decide (e.filename ≠ f))) =
      if d = f then 0 else scoreOf d l := by
  by_cases hd : d = f
  · subst hd
    rw [if_pos rfl]
    apply scoreOf_eq_zero
    simp [List.mem_map, List.mem_filter]
  · rw [if_neg hd]
    induction l with
    | nil => simp [scoreOf_nil]
    | cons a r ih =>
      by_cases ha : a.filename = f
      · have had : ¬ a.filename = d := fun h => hd (h.symm.trans ha)
        rw [List.filter_cons_of_neg (by simpa using ha), ih, scoreOf_cons, if_neg had]
        simp
      · rw [List.filter_cons_of_pos (by simpa using ha), scoreOf_cons, ih, scoreOf_cons]

/-- Among entries with pairwise different documents, an entry's sum is the total for its
document. -/
theorem scoreOf_of_mem_nodup (l : List (TfIdfNode K))
    (hn : (l.map TfIdfNode.filename).Nodup) (e : TfIdfNode K) (he : e ∈ l) :
    scoreOf e.filename l = e.tfIdfSum := by
  induction l with
  | nil => simp at he
  | cons a r ih =>
    simp only [List.map_cons, List.nodup_cons] at hn
    rw [scoreOf_cons]
    rcases List.mem_cons.mp he with rfl | he
    · rw [if_pos rfl, scoreOf_eq_zero _ _ hn.1]
      simp
    · have hne : a.filename ≠ e.filename := by
        intro h
        exact hn.1 (h ▸ List.mem_map.mpr ⟨e, he, rfl⟩)
      rw [if_neg hne, ih hn.2 he]
      simp

theorem duplicateRemoveInner_fst (f : CString) (l : List (TfIdfNode K)) (s : K) :
    (duplicateRemoveInner f s l).1 = s + scoreOf f l := by
  induction l generalizing s with
  | nil => simp [duplicateRemoveInner, scoreOf_nil]
  | cons a r ih =>
    simp only [duplicateRemoveInner, scoreOf_cons]
    split_ifs with h1 h2 h2
    · rw [ih]; ring
    · exact absurd (strcmp_eq_zero.mp h1).symm h2
    · exact absurd (strcmp_eq_zero.mpr h2.symm) h1
    · rw [ih]; ring

theorem duplicateRemoveInner_snd (f : CString) (l : List (TfIdfNode K)) (s : K) :
    (duplicateRemoveInner f s l).2 = l.filter (fun e => decide (e.filename ≠ f)) := by
  induction l generalizing s with
  | nil => simp [duplicateRemoveInner]
  | cons a r ih =>
    simp only [duplicateRemoveInner]
    split_ifs with h1
    · have := (strcmp_eq_zero.mp h1).symm
      rw [ih, List.filter_cons_of_neg (by simpa using this)]
    · have : a.filename ≠ f := fun h => h1 (strcmp_eq_zero.mpr h.symm)
      rw [ih, List.filter_cons_of_pos (by simpa using this)]

theorem duplicateRemove_nil : duplicateRemove ([] : List (TfIdfNode K)) = [] := by
  simp [duplicateRemove]

/-- `duplicateRemove` as a recursion on the list. -/
theorem duplicateRemove_cons (c : TfIdfNode K) (rest : List (TfIdfNode K)) :
    duplicateRemove (c :: rest) =
      ⟨c.filename, c.tfIdfSum + scoreOf c.filename rest⟩ ::
        duplicateRemove (rest.filter (fun e => decide (e.filename ≠ c.filename))) := by
  rw [duplicateRemove, duplicateRemoveInner_fst, duplicateRemoveInner_snd]

theorem duplicateRemove_spec (n : Nat) : ∀ l : List (TfIdfNode K), l.length ≤ n →
    ((duplicateRemove l).map TfIdfNode.filename).Nodup ∧
    (∀ d, d ∈ (duplicateRemove l).map TfIdfNode.filename ↔ d ∈ l.map TfIdfNode.filename) ∧
    (∀ d, scoreOf d (duplicateRemove l) = scoreOf d l) := by
  induction n with
  | zero =>
    intro l hl
    have : l = [] := List.length_eq_zero.mp (Nat.le_zero.mp hl)
    subst this
    simp [duplicateRemove_nil]
  | succ n ih =>
    intro l hl
    cases l with
    | nil => simp [duplicateRemove_nil]
    | cons c rest =>
      have hlen : (rest.filter (fun e => decide (e.filename ≠ c.filename))).length ≤ n := by
        have := List.length_filter_le (fun e : TfIdfNode K => decide (e.filename ≠ c.filename)) rest
        simp only [List.length_cons] at hl
        omega
      obtain ⟨h1, h2, h3⟩ := ih _ hlen
      have hmem : ∀ d, d ∈ (rest.filter (fun e => decide (e.filename ≠ c.filename))).map
          TfIdfNode.filename ↔ d ∈ rest.map TfIdfNode.filename ∧ d ≠ c.filename := by
        intro d
        simp only [List.mem_map, List.mem_filter, decide_eq_true_eq]
        constructor
        · rintro ⟨e, ⟨he, hne⟩, rfl⟩
          exact ⟨⟨e, he, rfl⟩, hne⟩
        · rintro ⟨⟨e, he, rfl⟩, hne⟩
          exact ⟨e, ⟨he, hne⟩, rfl⟩
      rw [duplicateRemove_cons]
      refine ⟨?_, ?_, ?_⟩
      · simp only [List.map_cons, List.nodup_cons]
        refine ⟨?_, h1⟩
        intro hc
        exact ((hmem _).mp ((h2 _).mp hc)).2 rfl
      · intro d
        simp only [List.map_cons, List.mem_cons]
        rw [h2, hmem]
        by_cases hd : d = c.filename <;> simp [hd]
      · intro d
        rw [scoreOf_cons, scoreOf_cons, h3, scoreOf_filter_ne]
        simp only []
        by_cases hd : c.filename = d
        · subst hd
          simp
        · rw [if_neg hd, if_neg hd, if_neg (fun h => hd h.symm)]

theorem duplicateRemove_nodup (l : List (TfIdfNode K)) :
    ((duplicateRemove l).map TfIdfNode.filename).Nodup :=
  (duplicateRemove_spec l.length l le_rfl).1

theorem mem_duplicateRemove (l : List (TfIdfNode K)) (d : CString) :
    d ∈ (duplicateRemove l).map TfIdfNode.filename ↔ d ∈ l.map TfIdfNode.filename :=
  (duplicateRemove_spec l.length l le_rfl).2.1 d

theorem scoreOf_duplicateRemove (l : List (TfIdfNode K)) (d : CString) :
    scoreOf d (duplicateRemove l) = scoreOf d l :=
  (duplicateRemove_spec l.length l le_rfl).2.2 d

end DuplicateFacts

/-! ## The retrieval loop -/

section RetrieveFacts

variable {K : Type} [LinearOrderedField K]

theorem scoreOf_map_of_nodup (d : CString) (g : FileListNode K → K)
    (fl : List (FileListNode K)) (hn : (fl.map FileListNode.filename).Nodup) :
    scoreOf d (fl.map (fun e => (⟨e.filename, g e⟩ : TfIdfNode K))) =
      match fl.find? (fun e => e.filename = d) with
      | none => 0
      | some e => g e := by
  induction fl with
  | nil => rfl
  | cons a r ih =>
    simp only [List.map_cons, List.nodup_cons] at hn
    rw [List.map_cons, scoreOf_cons]
    by_cases ha : a.filename = d
    · have hz : scoreOf d (r.map (fun e => (⟨e.filename, g e⟩ : TfIdfNode K))) = 0 := by
        apply scoreOf_eq_zero
        rw [List.map_map]
        exact ha ▸ hn.1
      simp [List.find?_cons, ha, hz]
    · rw [ih hn.2]
      simp [List.find?_cons, ha]

theorem calculateTfIdf_of_findNode (log10 : K → K) (t : InvertedIndexBST K) (w : CString)
    (D : Int) (fl : List (FileListNode K)) (h : findNode t w = some fl) :
    (calculateTfIdf log10 t w D).Perm (fl.map (scoreEntry log10 D fl.length)) := by
  rw [calculateTfIdf_eq, h]
  have := calculateTfIdfLoop_perm log10 D (wordCounter fl) fl []
  simpa [wordCounter_eq, scoreEntry] using this

theorem map_filename_scoreEntry (log10 : K → K) (D : Int) (n : Nat)
    (fl : List (FileListNode K)) :
    (fl.map (scoreEntry log10 D n)).map TfIdfNode.filename = fl.map FileListNode.filename := by
  simp [List.map_map, Function.comp_def, scoreEntry]

theorem scoreOf_calculateTfIdf (log10 : K → K) (t : InvertedIndexBST K) (w d : CString)
    (D : Int) (hf : FreqInv t) :
    scoreOf d (calculateTfIdf log10 t w D) = termWeight log10 t D w d := by
  unfold termWeight
  cases h : findNode t w with
  | none => simp [calculateTfIdf_eq, h, scoreOf_nil]
  | some fl =>
    have hn := Ascending_nodup fl (hf _ (mem_of_findNode t w fl h)).2
    rw [scoreOf_perm d (calculateTfIdf_of_findNode log10 t w D fl h)]
    exact scoreOf_map_of_nodup d (fun e => e.tf * log10 ((D : K) / (fl.length : K))) fl hn

theorem listCombine_spec (head1 head2 : List (TfIdfNode K)) (h1 : head1 ≠ [])
    (hn : (head1.map TfIdfNode.filename).Nodup) :
    ((listCombine head1 head2).map TfIdfNode.filename).Nodup ∧
    (∀ d, d ∈ (listCombine head1 head2).map TfIdfNode.filename ↔
      d ∈ head1.map TfIdfNode.filename ∨ d ∈ head2.map TfIdfNode.filename) ∧
    (∀ d, scoreOf d (listCombine head1 head2) = scoreOf d head1 + scoreOf d head2) := by
  unfold listCombine
  by_cases h2 : head2 = []
  · subst h2
    simp [hn, scoreOf_nil]
  · rw [if_neg (by simp [h1, h2])]
    have hp := descendingSort_perm (duplicateRemove (head1 ++ head2))
    refine ⟨?_, ?_, ?_⟩
    · exact ((hp.map _).nodup_iff).mpr (duplicateRemove_nodup _)
    · intro d
      rw [(hp.map TfIdfNode.filename).mem_iff, mem_duplicateRemove]
      simp
    · intro d
      rw [scoreOf_perm d hp, scoreOf_duplicateRemove, scoreOf_append]

theorem retrieveLoop_spec (log10 : K → K) (t : InvertedIndexBST K) (D : Int)
    (hc : ∀ w, w ∈ keys t → calculateTfIdf log10 t w D ≠ [] ∧
      ((calculateTfIdf log10 t w D).map TfIdfNode.filename).Nodup)
    (hs : ∀ w d, scoreOf d (calculateTfIdf log10 t w D) = termWeight log10 t D w d) :
    ∀ (q P : List CString) (a : List (TfIdfNode K)), (∀ w ∈ q, w ∈ keys t) →
      (a.map TfIdfNode.filename).Nodup →
      (∀ d, d ∈ a.map TfIdfNode.filename ↔
        ∃ w ∈ P, d ∈ (calculateTfIdf log10 t w D).map TfIdfNode.filename) →
      (∀ d, scoreOf d a = (P.map (fun w => termWeight log10 t D w d)).sum) →
      ((retrieveLoop log10 t D q a a).map TfIdfNode.filename).Nodup ∧
      (∀ d, d ∈ (retrieveLoop log10 t D q a a).map TfIdfNode.filename ↔
        ∃ w ∈ P ++ q, d ∈ (calculateTfIdf log10 t w D).map TfIdfNode.filename) ∧
      (∀ d, scoreOf d (retrieveLoop log10 t D q a a) =
        ((P ++ q).map (fun w => termWeight log10 t D w d)).sum) := by
  intro q
  induction q with
  | nil =>
    intro P a _ hn hm hsum
    simp only [retrieveLoop, List.append_nil]
    exact ⟨hn, hm, hsum⟩
  | cons w q ih =>
    intro P a hq hn hm hsum
    have hw := hc w (hq w (List.mem_cons_self _ _))
    obtain ⟨c1, c2, c3⟩ := listCombine_spec (calculateTfIdf log10 t w D) a hw.1 hw.2
    have := ih (P ++ [w]) (listCombine (calculateTfIdf log10 t w D) a)
      (fun v hv => hq v (List.mem_cons_of_mem _ hv)) c1
      (by
        intro d
        rw [c2, hm]
        simp only [List.mem_append, List.mem_singleton]
        constructor
        · rintro (h | ⟨v, hv, h⟩)
          · exact ⟨w, Or.inr rfl, h⟩
          · exact ⟨v, Or.inl hv, h⟩
        · rintro ⟨v, hv | rfl, h⟩
          · exact Or.inr ⟨v, hv, h⟩
          · exact Or.inl h)
      (by
        intro d
        rw [c3, hsum, hs]
        simp [add_comm])
    simp only [retrieveLoop]
    simpa only [List.append_assoc, List.singleton_append] using this

theorem calculateTfIdf_present (log10 : K → K) (t : InvertedIndexBST K) (D : Int)
    (hb : BSTInv t) (hf : FreqInv t) (w : CString) (hw : w ∈ keys t) :
    calculateTfIdf log10 t w D ≠ [] ∧
      ((calculateTfIdf log10 t w D).map TfIdfNode.filename).Nodup := by
  obtain ⟨⟨w1, fl⟩, hmem, rfl⟩ := List.mem_map.mp hw
  have hp := calculateTfIdf_of_findNode log10 t w1 D fl (findNode_of_mem t w1 fl hb hmem)
  have hfl := hf _ hmem
  constructor
  · intro h0
    rw [h0] at hp
    have := hp.length_eq
    simp only [List.length_nil, List.length_map] at this
    exact hfl.1 (List.length_eq_zero.mp this.symm)
  · rw [(hp.map TfIdfNode.filename).nodup_iff, map_filename_scoreEntry]
    exact Ascending_nodup fl hfl.2

theorem mem_calculateTfIdf_filename (log10 : K → K) (t : InvertedIndexBST K) (D : Int)
    (hb : BSTInv t) (w d : CString) :
    d ∈ (calculateTfIdf log10 t w D).map TfIdfNode.filename ↔
      ∃ fl, (w, fl) ∈ printInOrder t ∧ d ∈ fl.map FileListNode.filename := by
  constructor
  · intro h
    cases hfn : findNode t w with
    | none => simp [calculateTfIdf_eq, hfn] at h
    | some fl =>
      have hp := calculateTfIdf_of_findNode log10 t w D fl hfn
      rw [(hp.map TfIdfNode.filename).mem_iff, map_filename_scoreEntry] at h
      exact ⟨fl, mem_of_findNode t w fl hfn, h⟩
  · rintro ⟨fl, hmem, h⟩
    have hp := calculateTfIdf_of_findNode log10 t w D fl (findNode_of_mem t w fl hb hmem)
    rw [(hp.map TfIdfNode.filename).mem_iff, map_filename_scoreEntry]
    exact h

/-- What the `NULL` test of `listCombine` does to a query that ends in an absent word:
the whole ranking is dropped. -/
theorem retrieveLoop_absent_last (log10 : K → K) (t : InvertedIndexBST K) (D : Int)
    (w : CString) (hw : w ∉ keys t) (q : List CString) (o a : List (TfIdfNode K)) :
    retrieveLoop log10 t D (q ++ [w]) o a = [] := by
  induction q generalizing o a with
  | nil =>
    have hc : calculateTfIdf log10 t w D = [] := by
      rw [calculateTfIdf_eq, findNode_none_of_not_mem t w hw]
    simp [retrieveLoop, hc, listCombine]
  | cons v q ih =>
    rw [List.cons_append]
    simp only [retrieveLoop]
    exact ih _ _

theorem retrieve_absent_last (log10 : K → K) (t : InvertedIndexBST K) (D : Int)
    (w : CString) (hw : w ∉ keys t) (q : List CString) :
    retrieve log10 t (q ++ [w]) D = [] := by
  cases t with
  | nil => rfl
  | node rw fl l r => exact retrieveLoop_absent_last log10 _ D w hw q [] []

end RetrieveFacts

/-! ## Insertion into an existing entry -/

section InsertFacts

variable {K : Type} [LinearOrderedField K]

theorem bumpTf_eq_map (f : CString) (tw : K) (l : List (FileListNode K)) :
    bumpTf f tw l = l.map (bumpEntry f tw) := by
  induction l with
  | nil => rfl
  | cons a r ih =>
    simp only [bumpTf, List.map_cons, ih, bumpEntry]
    by_cases h : a.filename = f
    · rw [if_pos (strcmp_eq_zero.mpr h.symm), if_pos h]
    · rw [if_neg (fun h0 => h (strcmp_eq_zero.mp h0).symm), if_neg h]

/-- On an ascending list that already has an entry for the file, `InsertFileNode` changes
nothing. -/
theorem InsertFileNode_of_mem (l : List (FileListNode K)) (f : CString) (tf : K)
    (ha : Ascending l) (hm : f ∈ l.map FileListNode.filename) : InsertFileNode l f tf = l := by
  induction l with
  | nil => simp at hm
  | cons a r ih =>
    have hp := List.pairwise_cons.mp ha
    rw [InsertFileNode_cons]
    by_cases h0 : strcmp f a.filename = 0
    · rw [if_pos h0]
    · rw [if_neg h0]
      have hne : f ≠ a.filename := fun h => h0 (strcmp_eq_zero.mpr h)
      simp only [List.map_cons, List.mem_cons] at hm
      rcases hm with hm | hm
      · exact absurd hm hne
      · obtain ⟨e, he, rfl⟩ := List.mem_map.mp hm
        rw [if_neg (strcmp_asymm (hp.1 e he)), ih hp.2 hm]

theorem map_bumpLine_of_not_mem (w d : CString) (tw : K)
    (ls : List (CString × List (FileListNode K))) (h : w ∉ ls.map Prod.fst) :
    ls.map (bumpLine w d tw) = ls := by
  induction ls with
  | nil => rfl
  | cons a r ih =>
    simp only [List.map_cons, List.mem_cons, not_or] at h
    rw [List.map_cons, ih h.2, bumpLine, if_neg (fun h' => h.1 h'.symm)]

theorem not_mem_keys_of_lt (t : InvertedIndexBST K) (w : CString)
    (h : ∀ k ∈ keys t, strcmp w k < 0) : w ∉ keys t :=
  fun hw => strcmp_irrefl w (h w hw)

theorem not_mem_keys_of_gt (t : InvertedIndexBST K) (w : CString)
    (h : ∀ k ∈ keys t, strcmp k w < 0) : w ∉ keys t :=
  fun hw => strcmp_irrefl w (h w hw)

/-- Inserting a word and file that the index already pairs changes exactly the entries of
that word and file, by `1 / totalWords`. -/
theorem printInOrder_InsertTreeNode_existing (t : InvertedIndexBST K) (w d : CString)
    (tf tw : K) (hb : BSTInv t) (hf : FreqInv t)
    (h : ∃ fl, (w, fl) ∈ printInOrder t ∧ d ∈ fl.map FileListNode.filename) :
    printInOrder (InsertTreeNode t w d tf tw) = (printInOrder t).map (bumpLine w d tw) := by
  induction t with
  | nil =>
    obtain ⟨fl, hfl, _⟩ := h
    simp [printInOrder] at hfl
  | node rw rfl_ l r ihl ihr =>
    obtain ⟨hl, hr, hbl, hbr⟩ := hb
    obtain ⟨hfl, hfm, hfr⟩ := (FreqInv_node rw rfl_ l r).mp hf
    obtain ⟨fl, hmem, hd⟩ := h
    simp only [printInOrder, List.mem_append, List.mem_cons, Prod.mk.injEq] at hmem
    unfold InsertTreeNode
    split_ifs with h1 h2
    · -- the word is in the left subtree
      have hwl : (w, fl) ∈ printInOrder l := by
        rcases hmem with hm | ⟨rfl, _⟩ | hm
        · exact hm
        · exact absurd h1 (strcmp_irrefl _)
        · exact absurd h1 (strcmp_asymm (hr w (mem_keys_of_mem_printInOrder r w fl hm)))
      have hnr : w ∉ keys r :=
        not_mem_keys_of_lt r w (fun k hk => strcmp_trans h1 (hr k hk))
      simp only [printInOrder, List.map_append, List.map_cons]
      rw [ihl hbl hfl ⟨fl, hwl, hd⟩, map_bumpLine_of_not_mem w d tw _ hnr, bumpLine,
        if_neg (fun h' : rw = w => strcmp_irrefl w (h' ▸ h1))]
    · -- the word is in the right subtree
      have h2' : strcmp rw w < 0 := strcmp_pos_iff.mp h2
      have hwr : (w, fl) ∈ printInOrder r := by
        rcases hmem with hm | ⟨rfl, _⟩ | hm
        · exact absurd h2' (strcmp_asymm (hl w (mem_keys_of_mem_printInOrder l w fl hm)))
        · exact absurd h2' (strcmp_irrefl _)
        · exact hm
      have hnl : w ∉ keys l :=
        not_mem_keys_of_gt l w (fun k hk => strcmp_trans (hl k hk) h2')
      simp only [printInOrder, List.map_append, List.map_cons]
      rw [ihr hbr hfr ⟨fl, hwr, hd⟩, map_bumpLine_of_not_mem w d tw _ hnl, bumpLine,
        if_neg (fun h' : rw = w => strcmp_irrefl w (h' ▸ h2'))]
    · -- the word is the root's
      have hw : w = rw := strcmp_tricho h1 h2
      subst hw
      have hnl : w ∉ keys l := not_mem_keys_of_gt l w hl
      have hnr : w ∉ keys r := not_mem_keys_of_lt r w hr
      have hfl_eq : fl = rfl_ := by
        rcases hmem with hm | ⟨_, h'⟩ | hm
        · exact absurd (mem_keys_of_mem_printInOrder l w fl hm) hnl
        · exact h'
        · exact absurd (mem_keys_of_mem_printInOrder r w fl hm) hnr
      subst hfl_eq
      simp only [printInOrder, List.map_append, List.map_cons]
      rw [map_bumpLine_of_not_mem w d tw _ hnl, map_bumpLine_of_not_mem w d tw _ hnr,
        bumpLine, if_pos rfl]
      have hd' : d ∈ (bumpTf d tw fl).map FileListNode.filename := by
        rw [map_filename_bumpTf]; exact hd
      rw [InsertFileNode_of_mem _ d tf (Ascending_bumpTf d tw fl hfm.2) hd', bumpTf_eq_map]

end InsertFacts

/-! ## Stored term frequencies -/

section TfFacts

variable {K : Type} [LinearOrderedField K]

theorem findNode_InsertTreeNode (t : InvertedIndexBST K) (w d : CString) (tf tw : K)
    (w' : CString) :
    findNode (InsertTreeNode t w d tf tw) w' =
      if w' = w then some (InsertFileNode (bumpTf d tw ((findNode t w).getD [])) d tf)
      else findNode t w' := by
  induction t with
  | nil =>
    simp only [InsertTreeNode, newTreeNode, findNode]
    by_cases h : w' = w
    · subst h
      simp [strcmp_self, bumpTf]
    · rw [if_neg h]
      have h0 : strcmp w' w ≠ 0 := fun h0 => h (strcmp_eq_zero.mp h0)
      split_ifs with h1 h2
      · rfl
      · rfl
      · omega
  | node rw fl l r ihl ihr =>
    unfold InsertTreeNode
    by_cases h : w' = w
    · subst h
      rw [if_pos rfl]
      split_ifs with h1 h2
      · simp only [findNode, if_pos h1]
        rw [ihl, if_pos rfl]
      · simp only [findNode, if_neg h1, if_pos h2]
        rw [ihr, if_pos rfl]
      · simp [findNode, if_neg h1, if_neg h2]
    · rw [if_neg h]
      split_ifs with h1 h2
      · simp only [findNode]
        rw [ihl, if_neg h]
      · simp only [findNode]
        rw [ihr, if_neg h]
      · have hw : w = rw := strcmp_tricho h1 h2
        subst hw
        have h0 : strcmp w' w ≠ 0 := fun h0 => h (strcmp_eq_zero.mp h0)
        simp only [findNode]
        split_ifs with h3 h4
        · rfl
        · rfl
        · omega

theorem tfOf_nil (d : CString) : tfOf ([] : List (FileListNode K)) d = none := rfl

theorem tfOf_cons (a : FileListNode K) (l : List (FileListNode K)) (d : CString) :
    tfOf (a :: l) d = if a.filename = d then some a.tf else tfOf l d := by
  unfold tfOf
  by_cases h : a.filename = d <;> simp [List.find?_cons, h]

theorem tfOf_eq_none_iff (l : List (FileListNode K)) (d : CString) :
    tfOf l d = none ↔ d ∉ l.map FileListNode.filename := by
  induction l with
  | nil => simp [tfOf_nil]
  | cons a r ih =>
    rw [tfOf_cons]
    by_cases h : a.filename = d
    · simp [h]
    · rw [if_neg h, ih]
      simp only [List.map_cons, List.mem_cons, not_or]
      exact ⟨fun h2 => ⟨fun h' => h h'.symm, h2⟩, fun h2 => h2.2⟩

theorem tfOf_bumpTf (l : List (FileListNode K)) (d : CString) (tw : K) (d' : CString) :
    tfOf (bumpTf d tw l) d' =
      if d' = d then (tfOf l d).map (fun x => x + 1 / tw) else tfOf l d' := by
  induction l with
  | nil => simp [bumpTf, tfOf_nil]
  | cons a r ih =>
    rw [bumpTf_eq_map] at ih ⊢
    rw [List.map_cons, tfOf_cons, ih]
    by_cases h : d' = d
    · subst h
      by_cases ha : a.filename = d'
      · simp [bumpEntry, ha, tfOf_cons]
      · simp [bumpEntry, ha, tfOf_cons]
    · have h' : ¬ d = d' := fun e => h e.symm
      by_cases ha : a.filename = d'
      · have : ¬ a.filename = d := fun h' => h (ha.symm.trans h')
        simp [bumpEntry, ha, tfOf_cons, h, this]
      · by_cases hb : a.filename = d <;> simp [bumpEntry, ha, tfOf_cons, h, hb, h']

theorem tfOf_InsertFileNode (l : List (FileListNode K)) (d : CString) (tf : K)
    (ha : Ascending l) (d' : CString) :
    tfOf (InsertFileNode l d tf) d' =
      if d' = d then some ((tfOf l d).getD tf) else tfOf l d' := by
  induction l with
  | nil =>
    simp only [InsertFileNode_nil, tfOf_cons, tfOf_nil, newFileNode, Option.getD_none]
    by_cases h : d' = d
    · simp [h]
    · have h' : ¬ d = d' := fun e => h e.symm
      simp [h, h']
  | cons a r ih =>
    have hp := List.pairwise_cons.mp ha
    rw [InsertFileNode_cons]
    by_cases h0 : strcmp d a.filename = 0
    · have hda : d = a.filename := strcmp_eq_zero.mp h0
      rw [if_pos h0]
      by_cases h : d' = d
      · subst h
        simp [tfOf_cons, hda.symm]
      · rw [if_neg h]
    · have hda : ¬ a.filename = d := fun h => h0 (strcmp_eq_zero.mpr h.symm)
      rw [if_neg h0]
      by_cases h1 : strcmp d a.filename < 0
      · rw [if_pos h1]
        have hnot : d ∉ (a :: r).map FileListNode.filename := by
          intro hm
          rcases List.mem_map.mp hm with ⟨e, he, hed⟩
          rcases List.mem_cons.mp he with rfl | he
          · exact hda hed
          · have := strcmp_trans h1 (hp.1 e he)
            rw [hed] at this
            exact strcmp_irrefl d this
        have hnone := (tfOf_eq_none_iff (a :: r) d).mpr hnot
        rw [tfOf_cons, hnone]
        by_cases h : d' = d
        · subst h
          simp [newFileNode]
        · have h' : ¬ d = d' := fun e => h e.symm
          simp [newFileNode, h, h']
      · rw [if_neg h1, tfOf_cons, ih hp.2, tfOf_cons, tfOf_cons, if_neg hda]
        by_cases h : d' = d
        · subst h
          simp [hda]
        · simp [h]

theorem tfOf_insert_step (l : List (FileListNode K)) (d : CString) (tf tw : K)
    (ha : Ascending l) (d' : CString) :
    tfOf (InsertFileNode (bumpTf d tw l) d tf) d' =
      if d' = d then
        some (match tfOf l d with
          | some x => x + 1 / tw
          | none => tf)
      else tfOf l d' := by
  rw [tfOf_InsertFileNode _ _ _ (Ascending_bumpTf d tw l ha), tfOf_bumpTf, tfOf_bumpTf]
  by_cases h : d' = d
  · subst h
    simp only [if_true]
    cases tfOf l d' <;> simp
  · simp [h]

theorem tfAt_InsertTreeNode (t : InvertedIndexBST K) (w d : CString) (tf tw : K)
    (hf : FreqInv t) (w' d' : CString) :
    tfAt (InsertTreeNode t w d tf tw) w' d' =
      if w' = w ∧ d' = d then
        some (match tfAt t w d with
          | some x => x + 1 / tw
          | none => tf)
      else tfAt t w' d' := by
  unfold tfAt
  rw [findNode_InsertTreeNode]
  by_cases hw : w' = w
  · subst hw
    have hasc : Ascending ((findNode t w').getD []) := by
      cases h : findNode t w' with
      | none => exact List.Pairwise.nil
      | some fl => exact (hf _ (mem_of_findNode t w' fl h)).2
    simp only [if_true, true_and]
    rw [tfOf_insert_step _ _ _ _ hasc]
    cases h : findNode t w' with
    | none => simp [tfOf_nil]
    | some fl => simp
  · simp [hw]

end TfFacts

/-! ## Normalisation -/

theorem bufferString_of_no_nul (l : List Nat) (h : ∀ c ∈ l, c ≠ 0) : bufferString l = l := by
  induction l with
  | nil => rfl
  | cons a r ih =>
    have ha : a ≠ 0 := h a (List.mem_cons_self _ _)
    simp only [bufferString, List.takeWhile_cons, bne_iff_ne, ne_eq, ha, not_false_eq_true,
      if_true]
    exact congrArg _ (ih (fun c hc => h c (List.mem_cons_of_mem _ hc)))

theorem bufferString_append_nul (l : List Nat) (h : ∀ c ∈ l, c ≠ 0) :
    bufferString (l ++ [0]) = l := by
  induction l with
  | nil => rfl
  | cons a r ih =>
    have ha : a ≠ 0 := h a (List.mem_cons_self _ _)
    simp only [bufferString, List.cons_append, List.takeWhile_cons, bne_iff_ne, ne_eq, ha,
      not_false_eq_true, if_true]
    exact congrArg _ (ih (fun c hc => h c (List.mem_cons_of_mem _ hc)))

theorem normaliseByte_ne_zero (c : Nat) (h0 : c ≠ 0) (hs : isspace c = false) :
    normaliseByte c ≠ 0 := by
  have h32 : c ≠ 32 := by
    intro h; subst h; simp [isspace] at hs
  have h10 : c ≠ 10 := by
    intro h; subst h; simp [isspace] at hs
  simp only [normaliseByte, if_neg h32, if_neg h10]
  split_ifs <;> omega

theorem normaliseByte_punct (c : Nat) (h0 : c ≠ 0) (hs : isspace c = false) :
    (normaliseByte c = 46 ∨ normaliseByte c = 44 ∨ normaliseByte c = 63 ∨
      normaliseByte c = 59) ↔ (c = 46 ∨ c = 44 ∨ c = 63 ∨ c = 59) := by
  have h32 : c ≠ 32 := by
    intro h; subst h; simp [isspace] at hs
  have h10 : c ≠ 10 := by
    intro h; subst h; simp [isspace] at hs
  simp only [normaliseByte, if_neg h32, if_neg h10]
  split_ifs <;> omega

/-- A token is mapped to the empty word exactly when it is one of `.`, `,`, `?`, `;`. -/
theorem normaliseWord_eq_nil_iff (tok : CString) (h : IsToken tok) :
    normaliseWord tok = some [] ↔ (tok = [46] ∨ tok = [44] ∨ tok = [63] ∨ tok = [59]) := by
  obtain ⟨hne, hc⟩ := h
  obtain ⟨ini, last, rfl⟩ : ∃ ini last, tok = ini ++ [last] :=
    ⟨tok.dropLast, tok.getLast hne, (List.dropLast_append_getLast hne).symm⟩
  have hlast := hc last (by simp)
  have hini : ∀ c ∈ ini.map normaliseByte, c ≠ 0 := by
    intro c hcm
    obtain ⟨b, hb, rfl⟩ := List.mem_map.mp hcm
    have := hc b (by simp [hb])
    exact normaliseByte_ne_zero b this.1 this.2
  have hl0 := normaliseByte_ne_zero last hlast.1 hlast.2
  have hp := normaliseByte_punct last hlast.1 hlast.2
  have hsingle : (ini ++ [last] = [46] ∨ ini ++ [last] = [44] ∨ ini ++ [last] = [63] ∨
      ini ++ [last] = [59]) ↔ (ini = [] ∧ (last = 46 ∨ last = 44 ∨ last = 63 ∨ last = 59)) := by
    cases ini with
    | nil => simp
    | cons a r => cases r <;> simp
  rw [hsingle]
  have hgl : (List.map normaliseByte ini ++ [normaliseByte last]).getLast? =
      some (normaliseByte last) := by simp
  unfold normaliseWord
  simp only [List.map_append, List.map_cons, List.map_nil, hgl, List.dropLast_concat]
  by_cases hq : normaliseByte last = 46 ∨ normaliseByte last = 44 ∨ normaliseByte last = 63 ∨
      normaliseByte last = 59
  · rw [if_pos hq, bufferString_append_nul _ hini]
    simp only [Option.some.injEq, List.map_eq_nil_iff]
    exact ⟨fun h1 => ⟨h1, hp.mp hq⟩, fun h1 => h1.1⟩
  · rw [if_neg hq, bufferString_of_no_nul]
    · simp only [Option.some.injEq, List.append_eq_nil, List.map_eq_nil_iff, List.cons_ne_self,
        and_false, false_iff, not_and]
      exact fun _ h2 => hq (hp.mpr h2)
    · intro c hcm
      rcases List.mem_append.mp hcm with h1 | h1
      · exact hini c h1
      · rw [List.mem_singleton.mp h1]; exact hl0

/-! ## The builder -/

section BuilderFacts

variable {K : Type} [LinearOrderedField K]

theorem normaliseWord_isSome (tok : CString) (h : tok ≠ []) :
    ∃ w, normaliseWord tok = some w := by
  unfold normaliseWord
  cases hl : (tok.map normaliseByte).getLast? with
  | none =>
    rw [List.getLast?_eq_none_iff] at hl
    exact absurd (List.map_eq_nil_iff.mp hl) h
  | some c =>
    simp only []
    split_ifs
    · exact ⟨_, rfl⟩
    · exact ⟨_, rfl⟩

theorem generateInvertedIndexFile_eq (f : CString) (W : K) (toks : List CString)
    (h : ∀ tok ∈ toks, tok ≠ []) (t : InvertedIndexBST K) :
    generateInvertedIndexFile f W t toks =
      some ((fileCalls f W toks).foldl
        (fun t c => InsertTreeNode t c.word c.filename c.tf c.totalWords) t) := by
  induction toks generalizing t with
  | nil => rfl
  | cons tok rest ih =>
    obtain ⟨w, hw⟩ := normaliseWord_isSome tok (h tok (List.mem_cons_self _ _))
    simp only [generateInvertedIndexFile, fileCalls, List.filterMap_cons, hw, Option.map_some',
      List.foldl_cons]
    exact ih (fun tok' h' => h tok' (List.mem_cons_of_mem _ h')) _

theorem collectionCalls_nil : (collectionCalls [] : List (InsertCall K)) = [] := rfl

theorem collectionCalls_cons (doc : CString × List CString)
    (docs : List (CString × List CString)) :
    (collectionCalls (doc :: docs) : List (InsertCall K)) =
      fileCalls doc.1 ((getWordTotal doc.2 : Nat) : K) doc.2 ++ collectionCalls docs := by
  simp [collectionCalls, List.flatMap_cons]

theorem generateInvertedIndexLoop_eq (docs : List (CString × List CString))
    (h : ∀ doc ∈ docs, ∀ tok ∈ doc.2, tok ≠ []) (t : InvertedIndexBST K) :
    generateInvertedIndexLoop t docs =
      some ((collectionCalls docs).foldl
        (fun t c => InsertTreeNode t c.word c.filename c.tf c.totalWords) t) := by
  induction docs generalizing t with
  | nil => rfl
  | cons doc rest ih =>
    obtain ⟨f, toks⟩ := doc
    simp only [generateInvertedIndexLoop,
      generateInvertedIndexFile_eq f _ toks (h (f, toks) (List.mem_cons_self _ _)) t,
      collectionCalls_cons, List.foldl_append]
    exact ih (fun doc' h' => h doc' (List.mem_cons_of_mem _ h')) _

/-- With non-empty tokens the builder returns the tree of its `InsertTreeNode` calls. -/
theorem generateInvertedIndex_eq (docs : List (CString × List CString))
    (h : ∀ doc ∈ docs, ∀ tok ∈ doc.2, tok ≠ []) :
    (generateInvertedIndex docs : Option (InvertedIndexBST K)) =
      some (insertAll (collectionCalls docs)) :=
  generateInvertedIndexLoop_eq docs h BSTreeNew

theorem tfAt_foldl (w d : CString) (x : K) (cs : List (InsertCall K)) :
    ∀ t0 : InvertedIndexBST K, FreqInv t0 →
      (∀ c ∈ cs, c.word = w → c.filename = d → c.tf = x ∧ 1 / c.totalWords = x) →
      tfAt (cs.foldl (fun t c => InsertTreeNode t c.word c.filename c.tf c.totalWords) t0) w d =
        match tfAt t0 w d with
        | some y =>
          some (y + (cs.countP (fun c => decide (c.word = w ∧ c.filename = d)) : K) * x)
        | none =>
          if cs.countP (fun c => decide (c.word = w ∧ c.filename = d)) = 0 then none
          else some ((cs.countP (fun c => decide (c.word = w ∧ c.filename = d)) : K) * x) := by
  induction cs with
  | nil =>
    intro t0 _ _
    cases h : tfAt t0 w d <;> simp [h]
  | cons c cs ih =>
    intro t0 hf hcs
    have hf1 := FreqInv_InsertTreeNode t0 c.word c.filename c.tf c.totalWords hf
    rw [List.foldl_cons, ih _ hf1 (fun c' h' => hcs c' (List.mem_cons_of_mem _ h')),
      tfAt_InsertTreeNode _ _ _ _ _ hf]
    by_cases hc : c.word = w ∧ c.filename = d
    · obtain ⟨hx1, hx2⟩ := hcs c (List.mem_cons_self _ _) hc.1 hc.2
      have hc' : w = c.word ∧ d = c.filename := ⟨hc.1.symm, hc.2.symm⟩
      rw [if_pos hc', List.countP_cons_of_pos _ _ (by simpa using hc)]
      obtain ⟨rfl, rfl⟩ := hc
      cases h0 : tfAt t0 c.word c.filename with
      | none =>
        simp only [Nat.cast_add, Nat.cast_one, Nat.add_eq_zero, one_ne_zero, and_false,
          if_false, Option.some.injEq]
        rw [hx1]; ring
      | some y =>
        simp only [Nat.cast_add, Nat.cast_one, Option.some.injEq]
        rw [hx2]; ring
    · have hc' : ¬ (w = c.word ∧ d = c.filename) := fun h => hc ⟨h.1.symm, h.2.symm⟩
      rw [if_neg hc', List.countP_cons_of_neg _ _ (by simpa using hc)]

theorem countP_fileCalls_same (d : CString) (W : K) (toks : List CString) (w : CString) :
    (fileCalls d W toks).countP (fun c => decide (c.word = w ∧ c.filename = d)) =
      toks.countP (fun tok => decide (normaliseWord tok = some w)) := by
  induction toks with
  | nil => rfl
  | cons tok rest ih =>
    unfold fileCalls at ih ⊢
    cases hn : normaliseWord tok with
    | none =>
      rw [List.filterMap_cons_none (by simp [hn]), ih,
        List.countP_cons_of_neg _ _ (by simp [hn])]
    | some v =>
      rw [List.filterMap_cons_some (by simp [hn]; rfl)]
      by_cases hv : v = w
      · subst hv
        rw [List.countP_cons_of_pos _ _ (by simp), ih,
          List.countP_cons_of_pos _ _ (by simp [hn])]
      · rw [List.countP_cons_of_neg _ _ (by simp [hv]), ih,
          List.countP_cons_of_neg _ _ (by simp [hn, hv])]

theorem mem_fileCalls (f : CString) (W : K) (toks : List CString) (c : InsertCall K)
    (h : c ∈ fileCalls f W toks) :
    c.filename = f ∧ c.tf = 1 / W ∧ c.totalWords = W ∧
      ∃ tok ∈ toks, normaliseWord tok = some c.word := by
  unfold fileCalls at h
  obtain ⟨tok, htok, hc⟩ := List.mem_filterMap.mp h
  cases hn : normaliseWord tok with
  | none => simp [hn] at hc
  | some v =>
    simp only [hn, Option.map_some', Option.some.injEq] at hc
    subst hc
    exact ⟨rfl, rfl, rfl, tok, htok, hn⟩

theorem countP_fileCalls_other (f d : CString) (hfd : f ≠ d) (W : K) (toks : List CString)
    (w : CString) :
    (fileCalls f W toks).countP (fun c => decide (c.word = w ∧ c.filename = d)) = 0 := by
  rw [List.countP_eq_zero]
  intro c hc
  have := (mem_fileCalls f W toks c hc).1
  simp only [decide_eq_true_eq, not_and]
  intro _ h2
  exact hfd (this.symm.trans h2)

theorem countP_collectionCalls_of_not_mem (docs : List (CString × List CString))
    (w d : CString) (hd : d ∉ docs.map Prod.fst) :
    (collectionCalls docs : List (InsertCall K)).countP
      (fun c => decide (c.word = w ∧ c.filename = d)) = 0 := by
  induction docs with
  | nil => rfl
  | cons doc rest ih =>
    simp only [List.map_cons, List.mem_cons, not_or] at hd
    rw [collectionCalls_cons, List.countP_append, ih hd.2,
      countP_fileCalls_other doc.1 d (fun h => hd.1 h.symm)]

theorem countP_collectionCalls (docs : List (CString × List CString)) (w d : CString)
    (toks : List CString) (hnd : (docs.map Prod.fst).Nodup) (hd : (d, toks) ∈ docs) :
    (collectionCalls docs : List (InsertCall K)).countP
      (fun c => decide (c.word = w ∧ c.filename = d)) =
      toks.countP (fun tok => decide (normaliseWord tok = some w)) := by
  induction docs with
  | nil => simp at hd
  | cons doc rest ih =>
    simp only [List.map_cons, List.nodup_cons] at hnd
    rw [collectionCalls_cons, List.countP_append]
    rcases List.mem_cons.mp hd with rfl | hd
    · rw [countP_collectionCalls_of_not_mem rest w d hnd.1, countP_fileCalls_same]
      rfl
    · have hne : doc.1 ≠ d := by
        intro h
        exact hnd.1 (h ▸ List.mem_map.mpr ⟨(d, toks), hd, rfl⟩)
      rw [countP_fileCalls_other doc.1 d hne, ih hnd.2 hd, Nat.zero_add]

theorem mem_collectionCalls (docs : List (CString × List CString)) (c : InsertCall K)
    (h : c ∈ (collectionCalls docs : List (InsertCall K))) :
    ∃ doc ∈ docs, c.filename = doc.1 ∧ c.tf = 1 / ((doc.2.length : Nat) : K) ∧
      c.totalWords = ((doc.2.length : Nat) : K) ∧
      ∃ tok ∈ doc.2, normaliseWord tok = some c.word := by
  unfold collectionCalls at h
  obtain ⟨doc, hdoc, hc⟩ := List.mem_flatMap.mp h
  exact ⟨doc, hdoc, mem_fileCalls _ _ _ c hc⟩

theorem eq_of_nodup_fst (docs : List (CString × List CString))
    (hnd : (docs.map Prod.fst).Nodup) (d : CString) (a b : List CString)
    (ha : (d, a) ∈ docs) (hb : (d, b) ∈ docs) : a = b := by
  induction docs with
  | nil => simp at ha
  | cons doc rest ih =>
    simp only [List.map_cons, List.nodup_cons] at hnd
    rcases List.mem_cons.mp ha with ha1 | ha1 <;> rcases List.mem_cons.mp hb with hb1 | hb1
    · exact (Prod.mk.inj (ha1.trans hb1.symm)).2
    · rw [← ha1] at hnd
      exact absurd (List.mem_map.mpr ⟨(d, b), hb1, rfl⟩) hnd.1
    · rw [← hb1] at hnd
      exact absurd (List.mem_map.mpr ⟨(d, a), ha1, rfl⟩) hnd.1
    · exact ih hnd.2 ha1 hb1

theorem tfOf_some_mem (fl : List (FileListNode K)) (d : CString) (x : K)
    (h : tfOf fl d = some x) : ∃ e ∈ fl, e.filename = d ∧ e.tf = x := by
  induction fl with
  | nil => simp [tfOf_nil] at h
  | cons a r ih =>
    rw [tfOf_cons] at h
    by_cases ha : a.filename = d
    · rw [if_pos ha] at h
      exact ⟨a, List.mem_cons_self _ _, ha, Option.some.inj h⟩
    · rw [if_neg ha] at h
      obtain ⟨e, he, h1, h2⟩ := ih h
      exact ⟨e, List.mem_cons_of_mem _ he, h1, h2⟩

theorem tfAt_some_mem (t : InvertedIndexBST K) (w d : CString) (x : K)
    (h : tfAt t w d = some x) :
    ∃ fl, (w, fl) ∈ printInOrder t ∧ ∃ e ∈ fl, e.filename = d ∧ e.tf = x := by
  unfold tfAt at h
  cases hn : findNode t w with
  | none => simp [hn] at h
  | some fl =>
    simp only [hn] at h
    exact ⟨fl, mem_of_findNode t w fl hn, tfOf_some_mem fl d x h⟩

theorem mem_keys_insertAll (cs : List (InsertCall K)) (k : CString) :
    k ∈ keys (insertAll cs) ↔ ∃ c ∈ cs, c.word = k := by
  induction cs using List.reverseRecOn with
  | nil => simp [insertAll, BSTreeNew, keys_nil]
  | append_singleton cs c ih =>
    rw [insertAll_snoc, mem_keys_InsertTreeNode, ih]
    simp only [List.mem_append, List.mem_singleton]
    constructor
    · rintro (rfl | ⟨c', hc', rfl⟩)
      · exact ⟨c, Or.inr rfl, rfl⟩
      · exact ⟨c', Or.inl hc', rfl⟩
    · rintro ⟨c', hc' | rfl, rfl⟩
      · exact Or.inr ⟨c', hc', rfl⟩
      · exact Or.inl rfl

theorem word_mem_collectionCalls (docs : List (CString × List CString)) (w : CString) :
    (∃ c ∈ (collectionCalls docs : List (InsertCall K)), c.word = w) ↔
      ∃ doc ∈ docs, ∃ tok ∈ doc.2, normaliseWord tok = some w := by
  constructor
  · rintro ⟨c, hc, rfl⟩
    obtain ⟨doc, hdoc, _, _, _, h⟩ := mem_collectionCalls docs c hc
    exact ⟨doc, hdoc, h⟩
  · rintro ⟨doc, hdoc, tok, htok, hn⟩
    refine ⟨⟨w, doc.1, 1 / ((getWordTotal doc.2 : Nat) : K), ((getWordTotal doc.2 : Nat) : K)⟩,
      ?_, rfl⟩
    unfold collectionCalls
    refine List.mem_flatMap.mpr ⟨doc, hdoc, ?_⟩
    unfold fileCalls
    exact List.mem_filterMap.mpr ⟨tok, htok, by simp [hn]⟩

end BuilderFacts

/-! ## Ranked lists: ties -/

section TieFacts

variable {K : Type} [LinearOrderedField K]

theorem insertTfIdfNode_tie (l : List (TfIdfNode K)) (f : CString) (x : K)
    (hd : Descending l) (ht : TieAscending l) (hlt : ∀ e ∈ l, strcmp e.filename f < 0) :
    TieAscending (insertTfIdfNode l f x) := by
  induction l with
  | nil => simp [insertTfIdfNode, TieAscending]
  | cons a r ih =>
    have hd' := List.pairwise_cons.mp hd
    have ht' := List.pairwise_cons.mp ht
    simp only [insertTfIdfNode]
    split_ifs with hx
    · refine List.pairwise_cons.mpr ⟨?_, ht⟩
      intro e he heq
      exfalso
      have hle : e.tfIdfSum ≤ a.tfIdfSum := by
        rcases List.mem_cons.mp he with rfl | he
        · exact le_refl _
        · exact hd'.1 e he
      have hx' : a.tfIdfSum < x := hx
      have : x = e.tfIdfSum := heq
      rw [this] at hx'
      exact absurd hle (not_le.mpr hx')
    · refine List.pairwise_cons.mpr ⟨?_, ih hd'.2 ht'.2
        (fun e he => hlt e (List.mem_cons_of_mem _ he))⟩
      intro e he heq
      rcases List.mem_cons.mp ((insertTfIdfNode_perm r f x).subset he) with rfl | he
      · exact hlt a (List.mem_cons_self _ _)
      · exact ht'.1 e he heq

theorem calculateTfIdfLoop_tie (log10 : K → K) (D : Int) (fr : K)
    (fl : List (FileListNode K)) (list : List (TfIdfNode K)) (ha : Ascending fl)
    (hd : Descending list) (ht : TieAscending list)
    (hlt : ∀ e ∈ list, ∀ c ∈ fl, strcmp e.filename c.filename < 0) :
    TieAscending (calculateTfIdfLoop log10 D fr fl list) := by
  induction fl generalizing list with
  | nil => simpa [calculateTfIdfLoop] using ht
  | cons a r ih =>
    have ha' := List.pairwise_cons.mp ha
    simp only [calculateTfIdfLoop]
    refine ih _ ha'.2 (insertTfIdfNode_descending _ _ _ hd)
      (insertTfIdfNode_tie _ _ _ hd ht (fun e he => hlt e he a (List.mem_cons_self _ _))) ?_
    intro e he c hc
    rcases List.mem_cons.mp ((insertTfIdfNode_perm list _ _).subset he) with rfl | he
    · exact ha'.1 c hc
    · exact hlt e he c (List.mem_cons_of_mem _ hc)

theorem calculateTfIdf_tie (log10 : K → K) (t : InvertedIndexBST K) (w : CString) (D : Int)
    (hf : FreqInv t) : TieAscending (calculateTfIdf log10 t w D) := by
  rw [calculateTfIdf_eq]
  cases h : findNode t w with
  | none => exact List.Pairwise.nil
  | some fl =>
    exact calculateTfIdfLoop_tie log10 D _ fl [] (hf _ (mem_of_findNode t w fl h)).2
      List.Pairwise.nil List.Pairwise.nil (fun e he => absurd he (List.not_mem_nil e))

/-- `descendingSort` keeps, for every sum, the entries with that sum in their order. -/
theorem descendingSort_filter (s : K) (n : Nat) : ∀ l : List (TfIdfNode K), l.length = n →
    (descendingSort l).filter (fun e => decide (e.tfIdfSum = s)) =
      l.filter (fun e => decide (e.tfIdfSum = s)) := by
  induction n using Nat.strong_induction_on with
  | _ n ih =>
    intro l hl
    match l, hl with
    | [], _ => simp [descendingSort_nil]
    | [a], _ => simp [descendingSort_single]
    | a :: b :: rest, hl =>
      rw [descendingSort_cons_cons]
      have hxy : ((if a.tfIdfSum < b.tfIdfSum then b else a) ::
          (if a.tfIdfSum < b.tfIdfSum then a else b) :: rest).filter
            (fun e => decide (e.tfIdfSum = s)) =
          (a :: b :: rest).filter (fun e => decide (e.tfIdfSum = s)) := by
        split_ifs with hab
        · by_cases h1 : a.tfIdfSum = s
          · have h2 : ¬ b.tfIdfSum = s := fun h2 => absurd (h1.trans h2.symm) (ne_of_lt hab)
            simp [List.filter_cons, h1, h2]
          · simp [List.filter_cons, h1]
        · rfl
      generalize (if a.tfIdfSum < b.tfIdfSum then b else a) = x at hxy ⊢
      generalize (if a.tfIdfSum < b.tfIdfSum then a else b) = y at hxy ⊢
      simp only [List.length_cons] at hl
      have hf1 := ih (rest.length + 1) (by omega) (y :: rest) (by simp)
      have hp := descendingSort_perm (y :: rest)
      generalize descendingSort (y :: rest) = t at hf1 hp
      match t, hf1, hp with
      | [], _, hp => simpa using hp.length_eq
      | z :: t', hf1, hp =>
        have hlen : (x :: t').length = rest.length + 1 := by
          have := hp.length_eq
          simp only [List.length_cons] at this ⊢
          omega
        simp only []
        rw [← hxy]
        have hc : ∀ (e : TfIdfNode K) (l : List (TfIdfNode K)),
            (e :: l).filter (fun e => decide (e.tfIdfSum = s)) =
              [e].filter (fun e => decide (e.tfIdfSum = s)) ++
                l.filter (fun e => decide (e.tfIdfSum = s)) := by
          intro e l
          rw [← List.filter_append]
          rfl
        split_ifs with hxz
        · have hf2 := ih (rest.length + 1) (by omega) (x :: t') hlen
          have hsw : [z].filter (fun e => decide (e.tfIdfSum = s)) ++
              [x].filter (fun e => decide (e.tfIdfSum = s)) =
              [x].filter (fun e => decide (e.tfIdfSum = s)) ++
                [z].filter (fun e => decide (e.tfIdfSum = s)) := by
            by_cases h1 : x.tfIdfSum = s
            · have h2 : ¬ z.tfIdfSum = s :=
                fun h2 => absurd (h1.trans h2.symm) (ne_of_lt hxz)
              simp [List.filter_cons, h1, h2]
            · simp [List.filter_cons, h1]
          rw [hc z, hf2, hc x t', ← List.append_assoc, hsw, List.append_assoc, ← hc z t',
            hf1, ← hc x]
        · rw [hc x, hf1, ← hc x]

theorem descendingSort_length (l : List (TfIdfNode K)) :
    (descendingSort l).length = l.length :=
  (descendingSort_perm l).length_eq

end TieFacts

/-! ## Normalisation against the specification's wording -/

theorem normaliseByte_eq_lowerCase (c : Nat) (h32 : c ≠ 32) (h10 : c ≠ 10) :
    normaliseByte c = lowerCase c := by
  simp only [normaliseByte, lowerCase, if_neg h32, if_neg h10]

theorem lowerCase_ne_zero (c : Nat) (h0 : c ≠ 0) : lowerCase c ≠ 0 := by
  unfold lowerCase
  split_ifs <;> omega

theorem lowerCase_punct (c : Nat) :
    (lowerCase c = 46 ∨ lowerCase c = 44 ∨ lowerCase c = 63 ∨ lowerCase c = 59) ↔
      (c = 46 ∨ c = 44 ∨ c = 63 ∨ c = 59) := by
  unfold lowerCase
  split_ifs <;> omega

/-- On a non-empty string without NUL, blank and newline `normaliseWord` computes the
normal form of the specification. -/
theorem normaliseWord_eq_spec (t : CString) (hne : t ≠ [])
    (hc : ∀ c ∈ t, c ≠ 0 ∧ c ≠ 32 ∧ c ≠ 10) : normaliseWord t = some (normalisedSpec t) := by
  have hmap : t.map normaliseByte = t.map lowerCase :=
    List.map_congr_left (fun c h => normaliseByte_eq_lowerCase c (hc c h).2.1 (hc c h).2.2)
  obtain ⟨ini, last, rfl⟩ : ∃ ini last, t = ini ++ [last] :=
    ⟨t.dropLast, t.getLast hne, (List.dropLast_append_getLast hne).symm⟩
  have hini : ∀ c ∈ ini.map lowerCase, c ≠ 0 := by
    intro c hcm
    obtain ⟨b, hb, rfl⟩ := List.mem_map.mp hcm
    exact lowerCase_ne_zero b (hc b (by simp [hb])).1
  have hl0 := lowerCase_ne_zero last (hc last (by simp)).1
  have hgl : (List.map lowerCase ini ++ [lowerCase last]).getLast? = some (lowerCase last) := by
    simp
  have hgl2 : (ini ++ [last]).getLast? = some last := by simp
  unfold normaliseWord normalisedSpec
  rw [hmap]
  simp only [List.map_append, List.map_cons, List.map_nil, hgl, hgl2, List.dropLast_concat]
  by_cases hq : last = 46 ∨ last = 44 ∨ last = 63 ∨ last = 59
  · rw [if_pos ((lowerCase_punct last).mpr hq), if_pos hq, bufferString_append_nul _ hini]
  · rw [if_neg (fun h => hq ((lowerCase_punct last).mp h)), if_neg hq, bufferString_of_no_nul]
    intro c hcm
    rcases List.mem_append.mp hcm with h1 | h1
    · exact hini c h1
    · rw [List.mem_singleton.mp h1]; exact hl0

/-! ## The dump and the frame of an insertion -/

section FrameFacts

variable {K : Type} [LinearOrderedField K]

theorem countP_eq_one_of_nodup (l : List CString) (w : CString) (hn : l.Nodup)
    (hw : w ∈ l) : l.countP (fun k => decide (k = w)) = 1 := by
  induction l with
  | nil => simp at hw
  | cons a r ih =>
    have hn' := List.nodup_cons.mp hn
    by_cases ha : a = w
    · subst ha
      rw [List.countP_cons_of_pos _ _ (by simp)]
      have : r.countP (fun k => decide (k = a)) = 0 := by
        rw [List.countP_eq_zero]
        intro k hk
        simp only [decide_eq_true_eq]
        intro h
        exact hn'.1 (h ▸ hk)
      rw [this]
    · rw [List.countP_cons_of_neg _ _ (by simpa using ha)]
      exact ih hn'.2 ((List.mem_cons.mp hw).resolve_left (fun h => ha h.symm))

theorem fileNodePrint_eq_map (fl : List (FileListNode K)) :
    fileNodePrint fl = fl.map (fun e => (e.filename, e.tf)) := by
  induction fl with
  | nil => rfl
  | cons a r ih => simp [fileNodePrint, ih]

theorem map_fst_printInvertedIndex (t : InvertedIndexBST K) :
    (printInvertedIndex t).map Prod.fst = keys t := by
  simp [printInvertedIndex, keys, List.map_map, Function.comp_def]

theorem filter_ne_InsertFileNode (l : List (FileListNode K)) (d : CString) (tf : K) :
    (InsertFileNode l d tf).filter (fun e => decide (e.filename ≠ d)) =
      l.filter (fun e => decide (e.filename ≠ d)) := by
  induction l with
  | nil => simp [InsertFileNode_nil, newFileNode]
  | cons a r ih =>
    rw [InsertFileNode_cons]
    split_ifs with h1 h2
    · rfl
    · rw [List.filter_cons_of_neg (by simp [newFileNode])]
    · rw [List.filter_cons, List.filter_cons, ih]

theorem filter_ne_bumpTf (l : List (FileListNode K)) (d : CString) (tw : K) :
    (bumpTf d tw l).filter (fun e => decide (e.filename ≠ d)) =
      l.filter (fun e => decide (e.filename ≠ d)) := by
  induction l with
  | nil => rfl
  | cons a r ih =>
    simp only [bumpTf]
    by_cases h : strcmp d a.filename = 0
    · have ha : a.filename = d := (strcmp_eq_zero.mp h).symm
      rw [if_pos h, List.filter_cons_of_neg (by simp [ha]),
        List.filter_cons_of_neg (by simp [ha]), ih]
    · rw [if_neg h, List.filter_cons, List.filter_cons, ih]

theorem filter_eq_of_tfOf (l : List (FileListNode K)) (d : CString) (x : K)
    (ha : Ascending l) (h : tfOf l d = some x) :
    l.filter (fun e => decide (e.filename = d)) = [⟨d, x⟩] := by
  induction l with
  | nil => simp [tfOf_nil] at h
  | cons a r ih =>
    have hp := List.pairwise_cons.mp ha
    rw [tfOf_cons] at h
    by_cases hd : a.filename = d
    · rw [if_pos hd] at h
      have hx : a.tf = x := Option.some.inj h
      have hr : r.filter (fun e => decide (e.filename = d)) = [] := by
        rw [List.filter_eq_nil_iff]
        intro e he
        have := hp.1 e he
        simp only [decide_eq_true_eq]
        intro hed
        rw [hd, hed] at this
        exact strcmp_irrefl d this
      rw [List.filter_cons_of_pos (by simpa using hd), hr]
      cases a
      simp only at hd hx
      rw [hd, hx]
    · rw [if_neg hd] at h
      rw [List.filter_cons_of_neg (by simpa using hd)]
      exact ih hp.2 h

theorem filter_ne_printInOrder_InsertTreeNode (t : InvertedIndexBST K) (w d : CString)
    (tf tw : K) :
    (printInOrder (InsertTreeNode t w d tf tw)).filter (fun line => decide (line.1 ≠ w)) =
      (printInOrder t).filter (fun line => decide (line.1 ≠ w)) := by
  induction t with
  | nil => simp [InsertTreeNode, newTreeNode, printInOrder]
  | node rw fl l r ihl ihr =>
    unfold InsertTreeNode
    split_ifs with h1 h2
    · simp only [printInOrder, List.filter_append, List.filter_cons, ihl]
    · simp only [printInOrder, List.filter_append, List.filter_cons, ihr]
    · have hw : w = rw := strcmp_tricho h1 h2
      subst hw
      simp only [printInOrder, List.filter_append]
      rw [List.filter_cons_of_neg (by simp), List.filter_cons_of_neg (by simp)]

end FrameFacts

/-! ## The scenario of the specification -/

section ScenarioFacts

variable {K : Type} [LinearOrderedField K]

theorem scenario_build :
    (generateInvertedIndex [([65], [[99, 97, 116], [100, 111, 103], [99, 97, 116]]),
        ([66], [[100, 111, 103], [100, 111, 103]])] : Option (InvertedIndexBST K)) =
      some (InvertedIndexBST.node [99, 97, 116] [⟨[65], 2 / 3⟩] InvertedIndexBST.nil
        (InvertedIndexBST.node [100, 111, 103] [⟨[65], 1 / 3⟩, ⟨[66], 1⟩]
          InvertedIndexBST.nil InvertedIndexBST.nil)) := by
  simp [generateInvertedIndex, generateInvertedIndexLoop, generateInvertedIndexFile,
    normaliseWord, normaliseByte, bufferString, getWordTotal, InsertTreeNode, BSTreeNew,
    newTreeNode, InsertFileNode, InsertFileNodeLoop, newFileNode, bumpTf, strcmp]
  norm_num

theorem scenario_cat (log10 : K → K) :
    retrieve log10 (InvertedIndexBST.node [99, 97, 116] [⟨[65], 2 / 3⟩] InvertedIndexBST.nil
        (InvertedIndexBST.node [100, 111, 103] [⟨[65], 1 / 3⟩, ⟨[66], 1⟩]
          InvertedIndexBST.nil InvertedIndexBST.nil)) [[99, 97, 116]] 2 =
      [⟨[65], 2 / 3 * log10 2⟩] := by
  simp [retrieve, retrieveLoop, calculateTfIdf, calculateTfIdfLoop, wordCounter,
    insertTfIdfNode, newTfIdfNode, listCombine, strcmp]

theorem scenario_cat_dog (log10 : K → K) (h1 : log10 1 = 0) (h2 : 0 < log10 2) :
    retrieve log10 (InvertedIndexBST.node [99, 97, 116] [⟨[65], 2 / 3⟩] InvertedIndexBST.nil
        (InvertedIndexBST.node [100, 111, 103] [⟨[65], 1 / 3⟩, ⟨[66], 1⟩]
          InvertedIndexBST.nil InvertedIndexBST.nil)) [[99, 97, 116], [100, 111, 103]] 2 =
      [⟨[65], 2 / 3 * log10 2⟩, ⟨[66], 0⟩] := by
  have h3 : (2 : K) / (1 + 1) = 1 := by norm_num
  have h4 : ¬ (2 / 3 * log10 2 < 0) := not_lt.mpr (by positivity)
  simp [retrieve, retrieveLoop, calculateTfIdf, calculateTfIdfLoop, wordCounter,
    insertTfIdfNode, newTfIdfNode, listCombine, strcmp, h3, h1, duplicateRemove_cons,
    duplicateRemove_nil, scoreOf_cons, scoreOf_nil, descendingSort_cons_cons,
    descendingSort_single, h4]

end ScenarioFacts

/-! ## The content of the built index -/

section ContentFacts

variable {K : Type} [LinearOrderedField K]

theorem BSTInv_insertAll (calls : List (InsertCall K)) : BSTInv (insertAll calls) :=
  insertAll_induction BSTInv trivial
    (fun t c ht => BSTInv_InsertTreeNode t c.word c.filename c.tf c.totalWords ht) calls

theorem FreqInv_insertAll (calls : List (InsertCall K)) : FreqInv (insertAll calls) :=
  insertAll_induction FreqInv FreqInv_nil
    (fun t c ht => FreqInv_InsertTreeNode t c.word c.filename c.tf c.totalWords ht) calls

/-- The term frequency the built index stores for a word and a document of the
collection. -/
theorem tfAt_build_mem (docs : List (CString × List CString))
    (hnd : (docs.map Prod.fst).Nodup) (d : CString) (toks : List CString)
    (hd : (d, toks) ∈ docs) (w : CString) :
    tfAt (insertAll (collectionCalls docs) : InvertedIndexBST K) w d =
      if toks.countP (fun tok => decide (normaliseWord tok = some w)) = 0 then none
      else some ((toks.countP (fun tok => decide (normaliseWord tok = some w)) : K) *
        (1 / (toks.length : K))) := by
  have hfold := tfAt_foldl w d (1 / (toks.length : K)) (collectionCalls docs)
    (BSTreeNew : InvertedIndexBST K) FreqInv_nil (by
      intro c hc _ hcd
      obtain ⟨doc, hdoc, h1, h2, h3, _⟩ := mem_collectionCalls docs c hc
      have hdoc' : (d, doc.2) ∈ docs := by
        have : doc = (d, doc.2) := Prod.ext (h1.symm.trans hcd) rfl
        rw [← this]; exact hdoc
      have := eq_of_nodup_fst docs hnd d doc.2 toks hdoc' hd
      rw [h2, h3, this]
      exact ⟨rfl, rfl⟩)
  rw [countP_collectionCalls docs w d toks hnd hd] at hfold
  have hnil : tfAt (BSTreeNew : InvertedIndexBST K) w d = none := rfl
  rw [hnil] at hfold
  exact hfold

theorem tfAt_build_not_mem (docs : List (CString × List CString)) (d : CString)
    (hd : d ∉ docs.map Prod.fst) (w : CString) :
    tfAt (insertAll (collectionCalls docs) : InvertedIndexBST K) w d = none := by
  have hfold := tfAt_foldl w d (0 : K) (collectionCalls docs)
    (BSTreeNew : InvertedIndexBST K) FreqInv_nil (by
      intro c hc _ hcd
      obtain ⟨doc, hdoc, h1, _⟩ := mem_collectionCalls docs c hc
      exact absurd (List.mem_map.mpr ⟨doc, hdoc, h1.symm.trans hcd⟩) hd)
  rw [countP_collectionCalls_of_not_mem docs w d hd] at hfold
  have hnil : tfAt (BSTreeNew : InvertedIndexBST K) w d = none := rfl
  rw [hnil] at hfold
  simpa using hfold

theorem sum_map_ite_eq_countP (l : List CString) (p : CString → Prop) [DecidablePred p] :
    (l.map (fun w => if p w then 1 else 0)).sum = l.countP (fun w => decide (p w)) := by
  induction l with
  | nil => rfl
  | cons a r ih =>
    by_cases h : p a
    · rw [List.map_cons, List.sum_cons, ih, if_pos h,
        List.countP_cons_of_pos _ _ (by simpa using h)]
      omega
    · rw [List.map_cons, List.sum_cons, ih, if_neg h,
        List.countP_cons_of_neg _ _ (by simpa using h)]
      omega

/-- Counting the tokens word by word over a duplicate-free list of all their words counts
every token once. -/
theorem sum_countP_eq_length (ks : List CString) (hn : ks.Nodup) (toks : List CString)
    (h : ∀ tok ∈ toks, ∃ w ∈ ks, normaliseWord tok = some w) :
    (ks.map (fun w => toks.countP (fun tok => decide (normaliseWord tok = some w)))).sum =
      toks.length := by
  induction toks with
  | nil => simp
  | cons tok rest ih =>
    obtain ⟨w0, hw0, hn0⟩ := h tok (List.mem_cons_self _ _)
    have hsplit : ∀ w, (tok :: rest).countP (fun tok => decide (normaliseWord tok = some w)) =
        rest.countP (fun tok => decide (normaliseWord tok = some w)) +
          (if w = w0 then 1 else 0) := by
      intro w
      by_cases hw : w = w0
      · rw [List.countP_cons_of_pos _ _ (by simp [hn0, hw]), if_pos hw]
      · have hw' : ¬ w0 = w := fun h' => hw h'.symm
        rw [List.countP_cons_of_neg _ _ (by simp [hn0, hw']), if_neg hw]
        rfl
    simp only [hsplit, List.sum_map_add]
    rw [ih (fun tok' h' => h tok' (List.mem_cons_of_mem _ h')), sum_map_ite_eq_countP,
      countP_eq_one_of_nodup ks w0 hn hw0, List.length_cons]

theorem sum_filter_tf_eq (fl : List (FileListNode K)) (d : CString) (ha : Ascending fl) :
    ((fl.filter (fun e => decide (e.filename = d))).map FileListNode.tf).sum =
      (tfOf fl d).getD 0 := by
  cases h : tfOf fl d with
  | none =>
    have hnot := (tfOf_eq_none_iff fl d).mp h
    have : fl.filter (fun e => decide (e.filename = d)) = [] := by
      rw [List.filter_eq_nil_iff]
      intro e he
      simp only [decide_eq_true_eq]
      intro hed
      exact hnot (List.mem_map.mpr ⟨e, he, hed⟩)
    simp [this]
  | some x =>
    rw [filter_eq_of_tfOf fl d x ha h]
    simp

theorem sum_lines_eq_sum_keys (t : InvertedIndexBST K) (d : CString) (hb : BSTInv t)
    (hf : FreqInv t) :
    ((printInOrder t).map (fun line =>
      ((line.2.filter (fun e => decide (e.filename = d))).map FileListNode.tf).sum)).sum =
      ((keys t).map (fun w => (tfAt t w d).getD 0)).sum := by
  unfold keys
  rw [List.map_map]
  congr 1
  apply List.map_congr_left
  intro line hl
  have hfn := findNode_of_mem t line.1 line.2 hb hl
  simp only [Function.comp_apply, tfAt, hfn]
  exact sum_filter_tf_eq line.2 d (hf line hl).2

theorem sum_div_nat (ks : List CString) (c : CString → Nat) (W : K) :
    (ks.map (fun w => (c w : K) * (1 / W))).sum = ((ks.map c).sum : K) * (1 / W) := by
  induction ks with
  | nil => simp
  | cons a r ih =>
    simp only [List.map_cons, List.sum_cons, ih, Nat.cast_add]
    ring

/-- Two lists strictly ascending by key with the same lookups are equal. -/
theorem sorted_ext {E : Type} (key : E → CString) (l1 l2 : List E)
    (h1 : l1.Pairwise (fun a b => strcmp (key a) (key b) < 0))
    (h2 : l2.Pairwise (fun a b => strcmp (key a) (key b) < 0))
    (h : ∀ k, l1.find? (fun e => decide (key e = k)) = l2.find? (fun e => decide (key e = k))) :
    l1 = l2 := by
  induction l1 generalizing l2 with
  | nil =>
    cases l2 with
    | nil => rfl
    | cons b r2 =>
      have := h (key b)
      simp [List.find?_cons] at this
  | cons a r1 ih =>
    cases l2 with
    | nil =>
      have := h (key a)
      simp [List.find?_cons] at this
    | cons b r2 =>
      have hp1 := List.pairwise_cons.mp h1
      have hp2 := List.pairwise_cons.mp h2
      have hab : a = b := by
        have ha := h (key a)
        have hb := h (key b)
        by_cases hk : key b = key a
        · simp only [List.find?_cons, hk, decide_True] at ha
          exact Option.some.inj ha
        · exfalso
          have hk' : ¬ key a = key b := fun h' => hk h'.symm
          simp only [List.find?_cons, hk, hk', decide_True, decide_False] at ha hb
          have hamem := List.mem_of_find?_eq_some ha.symm
          have hbmem := List.mem_of_find?_eq_some hb
          exact strcmp_asymm (hp2.1 a hamem) (hp1.1 b hbmem)
      subst hab
      congr 1
      apply ih r2 hp1.2 hp2.2
      intro k
      by_cases hk : key a = k
      · have n1 : r1.find? (fun e => decide (key e = k)) = none := by
          rw [List.find?_eq_none]
          intro e he
          simp only [decide_eq_true_eq]
          intro hek
          have := hp1.1 e he
          rw [hk, hek] at this
          exact strcmp_irrefl k this
        have n2 : r2.find? (fun e => decide (key e = k)) = none := by
          rw [List.find?_eq_none]
          intro e he
          simp only [decide_eq_true_eq]
          intro hek
          have := hp2.1 e he
          rw [hk, hek] at this
          exact strcmp_irrefl k this
        rw [n1, n2]
      · have := h k
        rwa [List.find?_cons_of_neg _ (by simpa using hk),
          List.find?_cons_of_neg _ (by simpa using hk)] at this

theorem find?_of_mem_sorted {E : Type} (key : E → CString) (l : List E)
    (hs : l.Pairwise (fun a b => strcmp (key a) (key b) < 0)) (e : E) (he : e ∈ l) :
    l.find? (fun x => decide (key x = key e)) = some e := by
  induction l with
  | nil => simp at he
  | cons a r ih =>
    have hp := List.pairwise_cons.mp hs
    rcases List.mem_cons.mp he with rfl | he
    · simp [List.find?_cons]
    · have hne : ¬ key a = key e := by
        intro h
        have := hp.1 e he
        rw [h] at this
        exact strcmp_irrefl _ this
      simp only [List.find?_cons, hne, decide_False]
      exact ih hp.2 he

theorem fileList_ext (fl1 fl2 : List (FileListNode K)) (h1 : Ascending fl1)
    (h2 : Ascending fl2) (h : ∀ d, tfOf fl1 d = tfOf fl2 d) : fl1 = fl2 := by
  apply sorted_ext FileListNode.filename fl1 fl2 h1 h2
  intro k
  have hk := h k
  unfold tfOf at hk
  cases e1 : fl1.find? (fun e => decide (e.filename = k)) with
  | none =>
    cases e2 : fl2.find? (fun e => decide (e.filename = k)) with
    | none => rfl
    | some b => simp [e1, e2] at hk
  | some a =>
    cases e2 : fl2.find? (fun e => decide (e.filename = k)) with
    | none => simp [e1, e2] at hk
    | some b =>
      have ha := List.find?_some e1
      have hb := List.find?_some e2
      simp only [decide_eq_true_eq] at ha hb
      simp only [e1, e2, Option.map_some', Option.some.injEq] at hk
      cases a
      cases b
      simp only at ha hb hk
      rw [ha, hb, hk]

theorem findNode_ext (t1 t2 : InvertedIndexBST K) (hf1 : FreqInv t1) (hf2 : FreqInv t2)
    (h : ∀ w d, tfAt t1 w d = tfAt t2 w d) (w : CString) : findNode t1 w = findNode t2 w := by
  have key : ∀ (ta tb : InvertedIndexBST K), FreqInv ta →
      (∀ d, tfAt ta w d = tfAt tb w d) → ∀ fl, findNode ta w = some fl →
      findNode tb w = none → False := by
    intro ta tb hfa hab fl hfl hnone
    have hinv := hfa _ (mem_of_findNode ta w fl hfl)
    cases fl with
    | nil => exact hinv.1 rfl
    | cons e r =>
      have := hab e.filename
      simp [tfAt, hfl, hnone, tfOf_cons] at this
  cases e1 : findNode t1 w with
  | none =>
    cases e2 : findNode t2 w with
    | none => rfl
    | some fl2 => exact absurd e1 (fun h1 => key t2 t1 hf2 (fun d => (h w d).symm) fl2 e2 h1)
  | some fl1 =>
    cases e2 : findNode t2 w with
    | none => exact (key t1 t2 hf1 (h w) fl1 e1 e2).elim
    | some fl2 =>
      have hasc1 := (hf1 _ (mem_of_findNode t1 w fl1 e1)).2
      have hasc2 := (hf2 _ (mem_of_findNode t2 w fl2 e2)).2
      have : fl1 = fl2 := by
        apply fileList_ext fl1 fl2 hasc1 hasc2
        intro d
        have := h w d
        simpa [tfAt, e1, e2] using this
      rw [this]

theorem printInOrder_sorted (t : InvertedIndexBST K) (hb : BSTInv t) :
    (printInOrder t).Pairwise (fun a b => strcmp a.1 b.1 < 0) := by
  have := BSTInv_keys_sorted t hb
  unfold keys at this
  exact List.pairwise_map.mp this

theorem find?_printInOrder (t : InvertedIndexBST K) (hb : BSTInv t) (w : CString) :
    (printInOrder t).find? (fun line => decide (line.1 = w)) =
      (findNode t w).map (fun fl => (w, fl)) := by
  cases h : findNode t w with
  | none =>
    rw [Option.map_none', List.find?_eq_none]
    intro line hl
    simp only [decide_eq_true_eq]
    intro hw
    have := findNode_of_mem t line.1 line.2 hb hl
    rw [hw, h] at this
    exact Option.noConfusion this
  | some fl =>
    exact find?_of_mem_sorted Prod.fst _ (printInOrder_sorted t hb) (w, fl)
      (mem_of_findNode t w fl h)

/-- The dump is determined by the stored term frequencies. -/
theorem printInOrder_ext (t1 t2 : InvertedIndexBST K) (hb1 : BSTInv t1) (hf1 : FreqInv t1)
    (hb2 : BSTInv t2) (hf2 : FreqInv t2) (h : ∀ w d, tfAt t1 w d = tfAt t2 w d) :
    printInOrder t1 = printInOrder t2 := by
  apply sorted_ext Prod.fst _ _ (printInOrder_sorted t1 hb1) (printInOrder_sorted t2 hb2)
  intro w
  rw [find?_printInOrder t1 hb1, find?_printInOrder t2 hb2, findNode_ext t1 t2 hf1 hf2 h w]

end ContentFacts

/-! ## Claims -/

section Claims

variable {K : Type} [LinearOrderedField K]

/-- C1 at the input where it fails: in the tree holding `cat` for document `A`, the word `z`
is no key, the query `[cat]` ranks document `A`, and the query `[cat, z]` returns the empty
list: `listCombine` returns `head1` when `head1` is `NULL`, dropping the ranking so far. -/
theorem C1_absent_word_drops_ranking (log10 : K → K) :
    ([122] : CString) ∉
      keys (InsertTreeNode (BSTreeNew : InvertedIndexBST K) [99, 97, 116] [65] 1 1) ∧
    retrieve log10 (InsertTreeNode BSTreeNew [99, 97, 116] [65] 1 1) [[99, 97, 116]] 2
      = [⟨[65], 1 * log10 (2 / 1)⟩] ∧
    retrieve log10 (InsertTreeNode BSTreeNew [99, 97, 116] [65] 1 1)
      [[99, 97, 116], [122]] 2 = [] := by
  refine ⟨by simp [keys, printInOrder, InsertTreeNode, BSTreeNew, newTreeNode], ?_, ?_⟩
  · simp [retrieve, retrieveLoop, InsertTreeNode, BSTreeNew, newTreeNode, InsertFileNode,
      newFileNode, calculateTfIdf, strcmp, calculateTfIdfLoop, insertTfIdfNode, wordCounter,
      listCombine, newTfIdfNode]
  · simp [retrieve, retrieveLoop, InsertTreeNode, BSTreeNew, newTreeNode, InsertFileNode,
      newFileNode, calculateTfIdf, strcmp, calculateTfIdfLoop, insertTfIdfNode, wordCounter,
      listCombine, newTfIdfNode]

/-- C2: for every tree satisfying the BST and frequency-list invariants, every `D` and every
query list whose words are all keys of the tree (non-emptiness is not needed), the list
returned by `retrieve` contains a document iff it is in the file list of one of the query
words, contains it at most once, and gives it the sum over the query words, with
multiplicity, of that word's `tf * log10(D / df)` for the document (`termWeight`, which is
`0` for a word whose file list does not hold the document). -/
theorem C2_retrieve_sums (log10 : K → K) (t : InvertedIndexBST K) (D : Int)
    (q : List CString) (hb : BSTInv t) (hf : FreqInv t) (hq : ∀ w ∈ q, w ∈ keys t) :
    (∀ d, d ∈ (retrieve log10 t q D).map TfIdfNode.filename ↔
      ∃ w ∈ q, ∃ fl, (w, fl) ∈ printInOrder t ∧ d ∈ fl.map FileListNode.filename) ∧
    ((retrieve log10 t q D).map TfIdfNode.filename).Nodup ∧
    (∀ e ∈ retrieve log10 t q D,
      e.tfIdfSum = (q.map (fun w => termWeight log10 t D w e.filename)).sum) := by
  cases t with
  | nil => simp [retrieve, printInOrder]
  | node rw fl l r =>
    obtain ⟨h1, h2, h3⟩ := retrieveLoop_spec log10 (InvertedIndexBST.node rw fl l r) D
      (calculateTfIdf_present log10 _ D hb hf)
      (fun w d => scoreOf_calculateTfIdf log10 _ w d D hf)
      q [] [] hq List.nodup_nil (by simp) (by simp [scoreOf_nil])
    simp only [List.nil_append] at h2 h3
    refine ⟨?_, h1, ?_⟩
    · intro d
      simp only [retrieve]
      rw [h2]
      constructor
      · rintro ⟨w, hw, h⟩
        exact ⟨w, hw, (mem_calculateTfIdf_filename log10 _ D hb w d).mp h⟩
      · rintro ⟨w, hw, h⟩
        exact ⟨w, hw, (mem_calculateTfIdf_filename log10 _ D hb w d).mpr h⟩
    · intro e he
      simp only [retrieve] at he ⊢
      rw [← h3, scoreOf_of_mem_nodup _ h1 e he]

/-- Witness for C2: the query `[b, a]` on a two-node tree with documents `1` and `2`. -/
theorem C2_retrieve_sums_witness :
    BSTInv (InvertedIndexBST.node [97] [⟨[1], 1⟩] InvertedIndexBST.nil
      (InvertedIndexBST.node [98] [⟨[1], 1 / 2⟩, ⟨[2], 1⟩] InvertedIndexBST.nil
        InvertedIndexBST.nil) : InvertedIndexBST ℚ) ∧
    FreqInv (InvertedIndexBST.node [97] [⟨[1], 1⟩] InvertedIndexBST.nil
      (InvertedIndexBST.node [98] [⟨[1], 1 / 2⟩, ⟨[2], 1⟩] InvertedIndexBST.nil
        InvertedIndexBST.nil) : InvertedIndexBST ℚ) ∧
    (∀ w ∈ ([[98], [97]] : List CString),
      w ∈ keys (InvertedIndexBST.node [97] [⟨[1], 1⟩] InvertedIndexBST.nil
        (InvertedIndexBST.node [98] [⟨[1], 1 / 2⟩, ⟨[2], 1⟩] InvertedIndexBST.nil
          InvertedIndexBST.nil) : InvertedIndexBST ℚ)) ∧
    ((∀ d, d ∈ (retrieve id (InvertedIndexBST.node [97] [⟨[1], 1⟩] InvertedIndexBST.nil
        (InvertedIndexBST.node [98] [⟨[1], 1 / 2⟩, ⟨[2], 1⟩] InvertedIndexBST.nil
          InvertedIndexBST.nil) : InvertedIndexBST ℚ) [[98], [97]] 4).map TfIdfNode.filename ↔
      ∃ w ∈ ([[98], [97]] : List CString), ∃ fl,
        (w, fl) ∈ printInOrder (InvertedIndexBST.node [97] [⟨[1], 1⟩] InvertedIndexBST.nil
          (InvertedIndexBST.node [98] [⟨[1], 1 / 2⟩, ⟨[2], 1⟩] InvertedIndexBST.nil
            InvertedIndexBST.nil) : InvertedIndexBST ℚ) ∧
        d ∈ fl.map FileListNode.filename) ∧
    ((retrieve id (InvertedIndexBST.node [97] [⟨[1], 1⟩] InvertedIndexBST.nil
        (InvertedIndexBST.node [98] [⟨[1], 1 / 2⟩, ⟨[2], 1⟩] InvertedIndexBST.nil
          InvertedIndexBST.nil) : InvertedIndexBST ℚ) [[98], [97]] 4).map
        TfIdfNode.filename).Nodup ∧
    (∀ e ∈ retrieve id (InvertedIndexBST.node [97] [⟨[1], 1⟩] InvertedIndexBST.nil
        (InvertedIndexBST.node [98] [⟨[1], 1 / 2⟩, ⟨[2], 1⟩] InvertedIndexBST.nil
          InvertedIndexBST.nil) : InvertedIndexBST ℚ) [[98], [97]] 4,
      e.tfIdfSum = (([[98], [97]] : List CString).map (fun w => termWeight id
        (InvertedIndexBST.node [97] [⟨[1], 1⟩] InvertedIndexBST.nil
          (InvertedIndexBST.node [98] [⟨[1], 1 / 2⟩, ⟨[2], 1⟩] InvertedIndexBST.nil
            InvertedIndexBST.nil) : InvertedIndexBST ℚ) 4 w e.filename)).sum)) :=
  ⟨by decide, by decide, by decide,
    C2_retrieve_sums id _ 4 [[98], [97]] (by decide) (by decide) (by decide)⟩

/-- C3: every tree obtained from the empty tree by a finite sequence of `InsertTreeNode`
calls satisfies the BST invariant (at every node the words of the left subtree are
strictly smaller and the words of the right subtree strictly greater than the node's
word), and hence no word is the key of two nodes. -/
theorem C3_bst_invariant (calls : List (InsertCall K)) :
    BSTInv (insertAll calls) ∧ (keys (insertAll calls)).Nodup := by
  have h : BSTInv (insertAll calls) :=
    insertAll_induction BSTInv trivial
      (fun t c ht => BSTInv_InsertTreeNode t c.word c.filename c.tf c.totalWords ht) calls
  exact ⟨h, BSTInv_keys_nodup _ h⟩

/-- C4: every tree obtained from the empty tree by a finite sequence of `InsertTreeNode`
calls satisfies the frequency-list invariant: every node's file list is non-empty and
strictly ascending by filename (`FreqInv`), and therefore holds no filename twice
(`NoDuplicateFile`). -/
theorem C4_frequency_list_invariant (calls : List (InsertCall K)) :
    FreqInv (insertAll calls) ∧ NoDuplicateFile (insertAll calls) := by
  have h : FreqInv (insertAll calls) :=
    insertAll_induction FreqInv FreqInv_nil
      (fun t c ht => FreqInv_InsertTreeNode t c.word c.filename c.tf c.totalWords ht) calls
  exact ⟨h, FreqInv_NoDuplicateFile _ h⟩

/-- C5: for every collection of documents with pairwise distinct identifiers (tokens
non-empty, as `fscanf` delivers them), every document `d` of it with token list `toks` and
every word `w` that is the normalised form of `k ≥ 1` of the tokens of `d`, the builder
returns a tree that has a node for `w` whose file list has an entry for `d` with
`tf = k / W`, `W` the number of tokens of `d`, in exact field arithmetic. -/
theorem C5_tf_normalization (docs : List (CString × List CString)) (d : CString)
    (toks : List CString) (w : CString) (hnd : (docs.map Prod.fst).Nodup)
    (htok : ∀ doc ∈ docs, ∀ tok ∈ doc.2, tok ≠ []) (hd : (d, toks) ∈ docs)
    (hk : 1 ≤ toks.countP (fun tok => decide (normaliseWord tok = some w))) :
    ∃ t : InvertedIndexBST K, generateInvertedIndex docs = some t ∧
      ∃ fl, (w, fl) ∈ printInOrder t ∧ ∃ e ∈ fl, e.filename = d ∧
        e.tf = (toks.countP (fun tok => decide (normaliseWord tok = some w)) : K) /
          (toks.length : K) := by
  refine ⟨insertAll (collectionCalls docs), generateInvertedIndex_eq docs htok, ?_⟩
  have hfold := tfAt_foldl w d (1 / (toks.length : K)) (collectionCalls docs)
    (BSTreeNew : InvertedIndexBST K) FreqInv_nil (by
      intro c hc _ hcd
      obtain ⟨doc, hdoc, h1, h2, h3, _⟩ := mem_collectionCalls docs c hc
      have hdoc' : (d, doc.2) ∈ docs := by
        have : doc = (d, doc.2) := Prod.ext (h1.symm.trans hcd) rfl
        rw [← this]; exact hdoc
      have := eq_of_nodup_fst docs hnd d doc.2 toks hdoc' hd
      rw [h2, h3, this]
      exact ⟨rfl, rfl⟩)
  rw [countP_collectionCalls docs w d toks hnd hd] at hfold
  have hnil : tfAt (BSTreeNew : InvertedIndexBST K) w d = none := rfl
  rw [hnil] at hfold
  simp only [] at hfold
  rw [if_neg (by omega)] at hfold
  obtain ⟨fl, hfl, e, he, h1, h2⟩ := tfAt_some_mem _ w d _ hfold
  exact ⟨fl, hfl, e, he, h1, by rw [h2, mul_one_div]⟩

/-- Witness for C5: documents `A = c d c` and `B = d d`, word `c` in document `A`. -/
theorem C5_tf_normalization_witness :
    (([([65], [[99], [100], [99]]), ([66], [[100], [100]])] :
      List (CString × List CString)).map Prod.fst).Nodup ∧
    (∀ doc ∈ ([([65], [[99], [100], [99]]), ([66], [[100], [100]])] :
      List (CString × List CString)), ∀ tok ∈ doc.2, tok ≠ []) ∧
    (([65], [[99], [100], [99]]) : CString × List CString) ∈
      ([([65], [[99], [100], [99]]), ([66], [[100], [100]])] :
        List (CString × List CString)) ∧
    1 ≤ ([[99], [100], [99]] : List CString).countP
      (fun tok => decide (normaliseWord tok = some [99])) ∧
    ∃ t : InvertedIndexBST ℚ,
      generateInvertedIndex [([65], [[99], [100], [99]]), ([66], [[100], [100]])] = some t ∧
      ∃ fl, (([99] : CString), fl) ∈ printInOrder t ∧ ∃ e ∈ fl, e.filename = [65] ∧
        e.tf = (([[99], [100], [99]] : List CString).countP
          (fun tok => decide (normaliseWord tok = some [99])) : ℚ) /
            (([[99], [100], [99]] : List CString).length : ℚ) :=
  ⟨by decide, by decide, by decide, by decide,
    C5_tf_normalization [([65], [[99], [100], [99]]), ([66], [[100], [100]])] [65]
      [[99], [100], [99]] [99] (by decide) (by decide) (by decide) (by decide)⟩

/-- C6: for every tree satisfying the BST invariant and every word that is the key of a
node with file list `fl`, `calculateTfIdf` returns a list that is, up to order, exactly the
list of one entry per file-list entry carrying its document and `tf * log10(D / df)` with
`df` the number of entries of `fl`; it has exactly `df` entries. -/
theorem C6_scorer_correct (log10 : K → K) (t : InvertedIndexBST K) (D : Int) (w : CString)
    (fl : List (FileListNode K)) (hb : BSTInv t) (h : (w, fl) ∈ printInOrder t) :
    (calculateTfIdf log10 t w D).Perm (fl.map (scoreEntry log10 D fl.length)) ∧
      (calculateTfIdf log10 t w D).length = fl.length := by
  have hp : (calculateTfIdf log10 t w D).Perm (fl.map (scoreEntry log10 D fl.length)) := by
    rw [calculateTfIdf_eq, findNode_of_mem t w fl hb h]
    have := calculateTfIdfLoop_perm log10 D (wordCounter fl) fl []
    simpa [wordCounter_eq, scoreEntry] using this
  exact ⟨hp, by simpa using hp.length_eq⟩

/-- Witness for C6: the word `b` in a two-node tree, with two documents. -/
theorem C6_scorer_correct_witness :
    BSTInv (InvertedIndexBST.node [97] [⟨[1], 1⟩] InvertedIndexBST.nil
      (InvertedIndexBST.node [98] [⟨[1], 1 / 2⟩, ⟨[2], 1⟩] InvertedIndexBST.nil
        InvertedIndexBST.nil) : InvertedIndexBST ℚ) ∧
    (([98], [⟨[1], 1 / 2⟩, ⟨[2], 1⟩]) : CString × List (FileListNode ℚ)) ∈
      printInOrder (InvertedIndexBST.node [97] [⟨[1], 1⟩] InvertedIndexBST.nil
        (InvertedIndexBST.node [98] [⟨[1], 1 / 2⟩, ⟨[2], 1⟩] InvertedIndexBST.nil
          InvertedIndexBST.nil) : InvertedIndexBST ℚ) ∧
    ((calculateTfIdf id (InvertedIndexBST.node [97] [⟨[1], 1⟩] InvertedIndexBST.nil
        (InvertedIndexBST.node [98] [⟨[1], 1 / 2⟩, ⟨[2], 1⟩] InvertedIndexBST.nil
          InvertedIndexBST.nil) : InvertedIndexBST ℚ) [98] 4).Perm
        (([⟨[1], 1 / 2⟩, ⟨[2], 1⟩] : List (FileListNode ℚ)).map (scoreEntry id 4 2)) ∧
      (calculateTfIdf id (InvertedIndexBST.node [97] [⟨[1], 1⟩] InvertedIndexBST.nil
        (InvertedIndexBST.node [98] [⟨[1], 1 / 2⟩, ⟨[2], 1⟩] InvertedIndexBST.nil
          InvertedIndexBST.nil) : InvertedIndexBST ℚ) [98] 4).length = 2) :=
  ⟨by decide, by simp [printInOrder],
    C6_scorer_correct id _ 4 [98] [⟨[1], 1 / 2⟩, ⟨[2], 1⟩] (by decide)
      (by simp [printInOrder])⟩

/-- C7: for every tree, every `D`, every word and every query list, the list returned by
`calculateTfIdf` and the list returned by `retrieve` have sums that do not increase from
head to tail. -/
theorem C7_ranked_lists_descending (log10 : K → K) (t : InvertedIndexBST K) (D : Int)
    (w : CString) (q : List CString) :
    Descending (calculateTfIdf log10 t w D) ∧ Descending (retrieve log10 t q D) :=
  ⟨calculateTfIdf_descending log10 t w D, retrieve_descending log10 t q D⟩

/-- C8: if the word is not the key of any node, `calculateTfIdf` returns the empty list and
`retrieve` over the one-word query returns the empty list. -/
theorem C8_absent_word (log10 : K → K) (t : InvertedIndexBST K) (D : Int) (w : CString)
    (h : w ∉ keys t) :
    calculateTfIdf log10 t w D = [] ∧ retrieve log10 t [w] D = [] := by
  have hc : calculateTfIdf log10 t w D = [] := by
    rw [calculateTfIdf_eq, findNode_none_of_not_mem t w h]
  refine ⟨hc, ?_⟩
  cases t with
  | nil => rfl
  | node rw fl l r => simp [retrieve, retrieveLoop, hc, listCombine]

/-- Witness for C8: the word `b` in the one-node tree keyed `a`. -/
theorem C8_absent_word_witness :
    ([98] : CString) ∉ keys (InvertedIndexBST.node [97] [⟨[1], 1⟩]
        InvertedIndexBST.nil InvertedIndexBST.nil : InvertedIndexBST ℚ) ∧
      (calculateTfIdf id (InvertedIndexBST.node [97] [⟨[1], 1⟩]
        InvertedIndexBST.nil InvertedIndexBST.nil : InvertedIndexBST ℚ) [98] 2 = [] ∧
       retrieve id (InvertedIndexBST.node [97] [⟨[1], 1⟩]
        InvertedIndexBST.nil InvertedIndexBST.nil : InvertedIndexBST ℚ) [[98]] 2 = []) :=
  ⟨by decide, C8_absent_word id _ 2 [98] (by decide)⟩

/-- C9 as stated fails. First conjunct: in the tree built by one call for word `w` and
document `d`, a second call with `tf = 1/2` and `totalWords = 4` raises the entry from
`1/2` to `3/4`, that is by `1 / totalWords = 1/4` and not by `tf`. Second conjunct: on a tree
whose file list is not ascending (`b` before `a`) the call for document `a` also links a
new entry for `a` in front. -/
theorem C9_increment_is_not_tf :
    (InsertTreeNode (InsertTreeNode (BSTreeNew : InvertedIndexBST ℚ) [119] [100] (1 / 2) 4)
        [119] [100] (1 / 2) 4 =
      InvertedIndexBST.node [119] [⟨[100], 3 / 4⟩] InvertedIndexBST.nil InvertedIndexBST.nil ∧
      (3 / 4 : ℚ) ≠ 1 / 2 + 1 / 2) ∧
    InsertTreeNode (InvertedIndexBST.node [119] [⟨[98], 1⟩, ⟨[97], 1⟩]
        InvertedIndexBST.nil InvertedIndexBST.nil : InvertedIndexBST ℚ) [119] [97] 1 1 =
      InvertedIndexBST.node [119] [⟨[97], 1⟩, ⟨[98], 1⟩, ⟨[97], 2⟩]
        InvertedIndexBST.nil InvertedIndexBST.nil := by
  refine ⟨⟨?_, by norm_num⟩, ?_⟩
  · simp [InsertTreeNode, BSTreeNew, newTreeNode, InsertFileNode, newFileNode, bumpTf, strcmp]
    norm_num
  · simp [InsertTreeNode, InsertFileNode, newFileNode, bumpTf, strcmp]
    norm_num

/-- C9 amended: for every tree satisfying the BST and frequency-list invariants, if the
tree has a node for the word whose file list has an entry for the document, then
`InsertTreeNode(tree, word, document, tf, totalWords)` leaves the sequence of nodes and
entries as it was, except that the entry of that word and document has its `tf` increased
by exactly `1 / totalWords`; no entry is added. -/
theorem C9_insert_existing_entry (t : InvertedIndexBST K) (w d : CString) (tf tw : K)
    (hb : BSTInv t) (hf : FreqInv t)
    (h : ∃ fl, (w, fl) ∈ printInOrder t ∧ d ∈ fl.map FileListNode.filename) :
    printInOrder (InsertTreeNode t w d tf tw) = (printInOrder t).map (bumpLine w d tw) :=
  printInOrder_InsertTreeNode_existing t w d tf tw hb hf h

/-- Witness for C9: the one-node tree for word `w` and document `d`, `tf = 1/2`,
`totalWords = 4`. -/
theorem C9_insert_existing_entry_witness :
    BSTInv (InvertedIndexBST.node [119] [⟨[100], 1 / 2⟩]
      InvertedIndexBST.nil InvertedIndexBST.nil : InvertedIndexBST ℚ) ∧
    FreqInv (InvertedIndexBST.node [119] [⟨[100], 1 / 2⟩]
      InvertedIndexBST.nil InvertedIndexBST.nil : InvertedIndexBST ℚ) ∧
    (∃ fl, (([119], fl) : CString × List (FileListNode ℚ)) ∈
        printInOrder (InvertedIndexBST.node [119] [⟨[100], 1 / 2⟩]
          InvertedIndexBST.nil InvertedIndexBST.nil : InvertedIndexBST ℚ) ∧
      ([100] : CString) ∈ fl.map FileListNode.filename) ∧
    printInOrder (InsertTreeNode (InvertedIndexBST.node [119] [⟨[100], 1 / 2⟩]
        InvertedIndexBST.nil InvertedIndexBST.nil : InvertedIndexBST ℚ) [119] [100] (1 / 2) 4) =
      (printInOrder (InvertedIndexBST.node [119] [⟨[100], 1 / 2⟩]
        InvertedIndexBST.nil InvertedIndexBST.nil : InvertedIndexBST ℚ)).map
        (bumpLine [119] [100] 4) :=
  ⟨by decide, by decide, ⟨[⟨[100], 1 / 2⟩], by simp [printInOrder], by simp⟩,
    C9_insert_existing_entry _ [119] [100] (1 / 2) 4 (by decide) (by decide)
      ⟨[⟨[100], 1 / 2⟩], by simp [printInOrder], by simp⟩⟩

/-- C10 as stated fails: the one-character token `.` is a non-empty token without white
space; the builder normalises it to the empty string and inserts it, so the tree built
from the single document `d = "."` has a node whose word is the empty string. -/
theorem C10_empty_key_inserted :
    IsToken [46] ∧
    (generateInvertedIndex [([100], [[46]])] : Option (InvertedIndexBST ℚ)) =
      some (InvertedIndexBST.node [] [⟨[100], 1⟩] InvertedIndexBST.nil InvertedIndexBST.nil) ∧
    ([] : CString) ∈ keys (InvertedIndexBST.node [] [⟨[100], 1⟩]
      InvertedIndexBST.nil InvertedIndexBST.nil : InvertedIndexBST ℚ) := by
  refine ⟨by decide, ?_, by decide⟩
  simp [generateInvertedIndex, generateInvertedIndexLoop, generateInvertedIndexFile,
    normaliseWord, normaliseByte, bufferString, getWordTotal, InsertTreeNode, BSTreeNew,
    newTreeNode, InsertFileNode, newFileNode]

/-- C10 amended: for every collection of documents whose tokens are non-empty and free of
white space, the builder returns a tree, and this tree has a node whose word is the empty
string exactly when some token is one of the one-character tokens `.`, `,`, `?`, `;`
(the tokens that normalise to the empty string; they are inserted, not discarded). -/
theorem C10_empty_key_iff (docs : List (CString × List CString))
    (htok : ∀ doc ∈ docs, ∀ tok ∈ doc.2, IsToken tok) :
    ∃ t : InvertedIndexBST K, generateInvertedIndex docs = some t ∧
      (([] : CString) ∈ keys t ↔
        ∃ doc ∈ docs, ∃ tok ∈ doc.2, tok = [46] ∨ tok = [44] ∨ tok = [63] ∨ tok = [59]) := by
  refine ⟨insertAll (collectionCalls docs),
    generateInvertedIndex_eq docs (fun doc hdoc tok ht => (htok doc hdoc tok ht).1), ?_⟩
  rw [mem_keys_insertAll, word_mem_collectionCalls]
  constructor
  · rintro ⟨doc, hdoc, tok, ht, hn⟩
    exact ⟨doc, hdoc, tok, ht, (normaliseWord_eq_nil_iff tok (htok doc hdoc tok ht)).mp hn⟩
  · rintro ⟨doc, hdoc, tok, ht, hn⟩
    exact ⟨doc, hdoc, tok, ht, (normaliseWord_eq_nil_iff tok (htok doc hdoc tok ht)).mpr hn⟩

/-- Witness for C10: the document `d = "a." "."`. -/
theorem C10_empty_key_iff_witness :
    (∀ doc ∈ ([([100], [[97, 46], [46]])] : List (CString × List CString)),
      ∀ tok ∈ doc.2, IsToken tok) ∧
    ∃ t : InvertedIndexBST ℚ, generateInvertedIndex [([100], [[97, 46], [46]])] = some t ∧
      (([] : CString) ∈ keys t ↔
        ∃ doc ∈ ([([100], [[97, 46], [46]])] : List (CString × List CString)),
          ∃ tok ∈ doc.2, tok = [46] ∨ tok = [44] ∨ tok = [63] ∨ tok = [59]) :=
  ⟨by decide, C10_empty_key_iff [([100], [[97, 46], [46]])] (by decide)⟩

/-- C15: for every tree and `D`, `retrieve` over the empty query returns the empty list, and
for every word `w`, `retrieve` over the one-word query `[w]` returns exactly the list
`calculateTfIdf(tree, w, D)`. -/
theorem C15_degenerate_queries (log10 : K → K) (t : InvertedIndexBST K) (D : Int) :
    retrieve log10 t [] D = [] ∧
      ∀ w, retrieve log10 t [w] D = calculateTfIdf log10 t w D := by
  cases t with
  | nil => exact ⟨rfl, fun w => rfl⟩
  | node rw fl l r =>
    refine ⟨rfl, fun w => ?_⟩
    simp [retrieve, retrieveLoop, listCombine]

/-- C16: for every tree satisfying the frequency-list invariant (the BST invariant is not
needed), every `D` and every word, any two entries of the list returned by `calculateTfIdf`
that have equal sums stand in ascending filename order. -/
theorem C16_scorer_tie_order (log10 : K → K) (t : InvertedIndexBST K) (D : Int)
    (w : CString) (hf : FreqInv t) : TieAscending (calculateTfIdf log10 t w D) :=
  calculateTfIdf_tie log10 t w D hf

/-- Witness for C16: a word with two documents of equal term frequency. -/
theorem C16_scorer_tie_order_witness :
    FreqInv (InvertedIndexBST.node [98] [⟨[1], 1 / 2⟩, ⟨[2], 1 / 2⟩]
      InvertedIndexBST.nil InvertedIndexBST.nil : InvertedIndexBST ℚ) ∧
    TieAscending (calculateTfIdf id (InvertedIndexBST.node [98] [⟨[1], 1 / 2⟩, ⟨[2], 1 / 2⟩]
      InvertedIndexBST.nil InvertedIndexBST.nil : InvertedIndexBST ℚ) [98] 2) :=
  ⟨by decide, C16_scorer_tie_order id _ 2 [98] (by decide)⟩

/-- C17: `descendingSort` is a total function (its doubly recursive definition is accepted
with the list length as measure), and for every list its result is a permutation of the
input whose sums do not increase from head to tail. -/
theorem C17_descendingSort_sorts (head : List (TfIdfNode K)) :
    (descendingSort head).Perm head ∧ Descending (descendingSort head) :=
  ⟨descendingSort_perm head, descendingSort_descending head⟩

/-- C20: `descendingSort` is stable: for every list and every sum `s`, the entries with sum
`s` stand in the output in the order they have in the input; hence in the result of
`listCombine` ties stand in the order of the concatenated list after `duplicateRemove`. -/
theorem C20_descendingSort_stable (head head2 : List (TfIdfNode K)) (s : K) :
    (descendingSort head).filter (fun e => decide (e.tfIdfSum = s)) =
      head.filter (fun e => decide (e.tfIdfSum = s)) ∧
    (listCombine head head2).filter (fun e => decide (e.tfIdfSum = s)) =
      (if head = [] ∨ head2 = [] then head
        else duplicateRemove (head ++ head2)).filter (fun e => decide (e.tfIdfSum = s)) := by
  refine ⟨descendingSort_filter s head.length head rfl, ?_⟩
  unfold listCombine
  split_ifs
  · rfl
  · exact descendingSort_filter s _ _ rfl

/-- C12: for every non-empty token without blank or newline (and, being a C string, without
NUL), `normaliseWord` returns the token with every letter `A`-`Z` lower-cased and, when its
last character is one of `.`, `,`, `?`, `;`, with exactly that last character removed
(`normalisedSpec`); in particular `"end.."` becomes `"end."`. -/
theorem C12_normaliseWord_spec (t : CString) (hne : t ≠ [])
    (hc : ∀ c ∈ t, c ≠ 0 ∧ c ≠ 32 ∧ c ≠ 10) :
    normaliseWord t = some (normalisedSpec t) ∧
      normaliseWord [101, 110, 100, 46, 46] = some [101, 110, 100, 46] :=
  ⟨normaliseWord_eq_spec t hne hc, by decide⟩

/-- Witness for C12: the token `End..`. -/
theorem C12_normaliseWord_spec_witness :
    ([69, 110, 100, 46, 46] : CString) ≠ [] ∧
    (∀ c ∈ ([69, 110, 100, 46, 46] : CString), c ≠ 0 ∧ c ≠ 32 ∧ c ≠ 10) ∧
    normaliseWord [69, 110, 100, 46, 46] = some (normalisedSpec [69, 110, 100, 46, 46]) ∧
      normaliseWord [101, 110, 100, 46, 46] = some [101, 110, 100, 46] :=
  ⟨by decide, by decide, C12_normaliseWord_spec [69, 110, 100, 46, 46] (by decide) (by decide)⟩

/-- C13: for every tree produced from the empty tree by `InsertTreeNode` calls, the lines of
the dump carry the words in strictly ascending `strcmp` order, every inserted word exactly
once and no other word, and each line lists the entries of the file list of the node of its
word, from head to tail. -/
theorem C13_dump_order (calls : List (InsertCall K)) :
    ((printInvertedIndex (insertAll calls)).map Prod.fst).Pairwise
      (fun a b => strcmp a b < 0) ∧
    (∀ w, (∃ c ∈ calls, c.word = w) →
      ((printInvertedIndex (insertAll calls)).map Prod.fst).countP
        (fun k => decide (k = w)) = 1) ∧
    (∀ w, w ∈ (printInvertedIndex (insertAll calls)).map Prod.fst → ∃ c ∈ calls, c.word = w) ∧
    (∀ line ∈ printInvertedIndex (insertAll calls), ∃ fl,
      findNode (insertAll calls) line.1 = some fl ∧
        line.2 = fl.map (fun e => (e.filename, e.tf))) := by
  have hb : BSTInv (insertAll calls) :=
    insertAll_induction BSTInv trivial
      (fun t c ht => BSTInv_InsertTreeNode t c.word c.filename c.tf c.totalWords ht) calls
  rw [map_fst_printInvertedIndex]
  refine ⟨BSTInv_keys_sorted _ hb, ?_, ?_, ?_⟩
  · intro w hw
    exact countP_eq_one_of_nodup _ w (BSTInv_keys_nodup _ hb)
      ((mem_keys_insertAll calls w).mpr hw)
  · intro w hw
    exact (mem_keys_insertAll calls w).mp hw
  · intro line hl
    obtain ⟨⟨w, fl⟩, hmem, rfl⟩ := List.mem_map.mp hl
    exact ⟨fl, findNode_of_mem _ w fl hb hmem, fileNodePrint_eq_map fl⟩

/-- C19: for every tree satisfying the BST and frequency-list invariants and every word `w`
and document `d`, `InsertTreeNode(tree, w, d, tf, totalWords)` keeps the keys other than
`w`, keeps every line of a word other than `w` (word and file list, in order), leaves
exactly one node for `w`, and in the file list of `w` keeps the entries of documents other
than `d` (entries and order) while the entries for `d` are exactly one: the new one with
`tf`, or the old one raised by `1 / totalWords`. -/
theorem C19_insert_frame (t : InvertedIndexBST K) (w d : CString) (tf tw : K)
    (hb : BSTInv t) (hf : FreqInv t) :
    (∀ k, k ≠ w → (k ∈ keys (InsertTreeNode t w d tf tw) ↔ k ∈ keys t)) ∧
    (printInOrder (InsertTreeNode t w d tf tw)).filter (fun line => decide (line.1 ≠ w)) =
      (printInOrder t).filter (fun line => decide (line.1 ≠ w)) ∧
    (keys (InsertTreeNode t w d tf tw)).countP (fun k => decide (k = w)) = 1 ∧
    ∃ newfl, (w, newfl) ∈ printInOrder (InsertTreeNode t w d tf tw) ∧
      newfl.filter (fun e => decide (e.filename ≠ d)) =
        ((findNode t w).getD []).filter (fun e => decide (e.filename ≠ d)) ∧
      newfl.filter (fun e => decide (e.filename = d)) =
        [⟨d, match tfOf ((findNode t w).getD []) d with
          | some x => x + 1 / tw
          | none => tf⟩] := by
  have hasc : Ascending ((findNode t w).getD []) := by
    cases h : findNode t w with
    | none => exact List.Pairwise.nil
    | some fl => exact (hf _ (mem_of_findNode t w fl h)).2
  have hfn := findNode_InsertTreeNode t w d tf tw w
  rw [if_pos rfl] at hfn
  refine ⟨?_, filter_ne_printInOrder_InsertTreeNode t w d tf tw, ?_, _,
    mem_of_findNode _ w _ hfn, ?_, ?_⟩
  · intro k hk
    rw [mem_keys_InsertTreeNode]
    exact ⟨fun h => h.resolve_left hk, Or.inr⟩
  · exact countP_eq_one_of_nodup _ w
      (BSTInv_keys_nodup _ (BSTInv_InsertTreeNode t w d tf tw hb))
      ((mem_keys_InsertTreeNode t w d tf tw w).mpr (Or.inl rfl))
  · rw [filter_ne_InsertFileNode, filter_ne_bumpTf]
  · apply filter_eq_of_tfOf
    · exact Ascending_InsertFileNode _ _ _ (Ascending_bumpTf _ _ _ hasc)
    · rw [tfOf_insert_step _ _ _ _ hasc, if_pos rfl]

/-- Witness for C19: a second document for the word `b` in `exampleTree`. -/
theorem C19_insert_frame_witness :
    BSTInv exampleTree ∧ FreqInv exampleTree ∧
    ((∀ k, k ≠ [98] →
      (k ∈ keys (InsertTreeNode exampleTree [98] [3] (1 / 4) 4) ↔ k ∈ keys exampleTree)) ∧
    (printInOrder (InsertTreeNode exampleTree [98] [3] (1 / 4) 4)).filter
        (fun line => decide (line.1 ≠ [98])) =
      (printInOrder exampleTree).filter (fun line => decide (line.1 ≠ [98])) ∧
    (keys (InsertTreeNode exampleTree [98] [3] (1 / 4) 4)).countP
      (fun k => decide (k = [98])) = 1 ∧
    ∃ newfl, ([98], newfl) ∈ printInOrder (InsertTreeNode exampleTree [98] [3] (1 / 4) 4) ∧
      newfl.filter (fun e => decide (e.filename ≠ [3])) =
        ((findNode exampleTree [98]).getD []).filter (fun e => decide (e.filename ≠ [3])) ∧
      newfl.filter (fun e => decide (e.filename = [3])) =
        [⟨[3], match tfOf ((findNode exampleTree [98]).getD []) [3] with
          | some x => x + 1 / 4
          | none => 1 / 4⟩]) :=
  ⟨by decide, by decide,
    C19_insert_frame exampleTree [98] [3] (1 / 4) 4 (by decide) (by decide)⟩

/-- C11: for the index built from `A = cat dog cat` and `B = dog dog` with `D = 2`, and a
`log10` with `log10 1 = 0` and `0 < log10 2`: the stored term frequencies are `2/3` for
`cat` in `A`, `1/3` for `dog` in `A` and `1` for `dog` in `B`; `retrieve` over `[cat]`
returns exactly `[(A, 2/3 * log10 2)]`; `retrieve` over `[cat, dog]` returns
`[(A, 2/3 * log10 2), (B, 0)]`, so `A` is the head with that sum, `A` and `B` appear once
each and `B` has sum `0`. -/
theorem C11_scenario (log10 : K → K) (h1 : log10 1 = 0) (h2 : 0 < log10 2) :
    ∃ t : InvertedIndexBST K,
      generateInvertedIndex [([65], [[99, 97, 116], [100, 111, 103], [99, 97, 116]]),
        ([66], [[100, 111, 103], [100, 111, 103]])] = some t ∧
      printInOrder t =
        [([99, 97, 116], [⟨[65], 2 / 3⟩]), ([100, 111, 103], [⟨[65], 1 / 3⟩, ⟨[66], 1⟩])] ∧
      retrieve log10 t [[99, 97, 116]] 2 = [⟨[65], 2 / 3 * log10 2⟩] ∧
      retrieve log10 t [[99, 97, 116], [100, 111, 103]] 2 =
        [⟨[65], 2 / 3 * log10 2⟩, ⟨[66], 0⟩] :=
  ⟨_, scenario_build, by simp [printInOrder], scenario_cat log10,
    scenario_cat_dog log10 h1 h2⟩

/-- Witness for C11: the real numbers with the logarithm to base 10. -/
theorem C11_scenario_witness :
    Real.logb 10 1 = 0 ∧ 0 < Real.logb 10 2 ∧
    ∃ t : InvertedIndexBST ℝ,
      generateInvertedIndex [([65], [[99, 97, 116], [100, 111, 103], [99, 97, 116]]),
        ([66], [[100, 111, 103], [100, 111, 103]])] = some t ∧
      printInOrder t =
        [([99, 97, 116], [⟨[65], 2 / 3⟩]), ([100, 111, 103], [⟨[65], 1 / 3⟩, ⟨[66], 1⟩])] ∧
      retrieve (Real.logb 10) t [[99, 97, 116]] 2 = [⟨[65], 2 / 3 * Real.logb 10 2⟩] ∧
      retrieve (Real.logb 10) t [[99, 97, 116], [100, 111, 103]] 2 =
        [⟨[65], 2 / 3 * Real.logb 10 2⟩, ⟨[66], 0⟩] :=
  ⟨Real.logb_one, Real.logb_pos (by norm_num) (by norm_num),
    C11_scenario (Real.logb 10) Real.logb_one (Real.logb_pos (by norm_num) (by norm_num))⟩

/-- C14: for every collection of documents with pairwise distinct identifiers (tokens
non-empty) and every permutation of the tokens of one of its documents, the builder returns
trees with the same sequence of lines (word and file list with exact term frequencies). -/
theorem C14_word_order_irrelevant (pre post : List (CString × List CString)) (d : CString)
    (toks toks' : List CString) (hperm : toks.Perm toks')
    (hnd : ((pre ++ (d, toks) :: post).map Prod.fst).Nodup)
    (htok : ∀ doc ∈ pre ++ (d, toks) :: post, ∀ tok ∈ doc.2, tok ≠ []) :
    ∃ t1 t2 : InvertedIndexBST K,
      generateInvertedIndex (pre ++ (d, toks) :: post) = some t1 ∧
      generateInvertedIndex (pre ++ (d, toks') :: post) = some t2 ∧
      printInOrder t1 = printInOrder t2 := by
  have hids : (pre ++ (d, toks') :: post).map Prod.fst =
      (pre ++ (d, toks) :: post).map Prod.fst := by simp
  have hnd' : ((pre ++ (d, toks') :: post).map Prod.fst).Nodup := by rw [hids]; exact hnd
  have htok' : ∀ doc ∈ pre ++ (d, toks') :: post, ∀ tok ∈ doc.2, tok ≠ [] := by
    intro doc hdoc tok ht
    simp only [List.mem_append, List.mem_cons] at hdoc
    rcases hdoc with h | rfl | h
    · exact htok doc (by simp [h]) tok ht
    · exact htok (d, toks) (by simp) tok (hperm.symm.subset ht)
    · exact htok doc (by simp [h]) tok ht
  refine ⟨insertAll (collectionCalls (pre ++ (d, toks) :: post)),
    insertAll (collectionCalls (pre ++ (d, toks') :: post)),
    generateInvertedIndex_eq _ htok, generateInvertedIndex_eq _ htok', ?_⟩
  apply printInOrder_ext _ _ (BSTInv_insertAll _) (FreqInv_insertAll _) (BSTInv_insertAll _)
    (FreqInv_insertAll _)
  intro w d0
  by_cases hd0 : d0 ∈ (pre ++ (d, toks) :: post).map Prod.fst
  · obtain ⟨⟨d1, tk⟩, hmem, rfl⟩ := List.mem_map.mp hd0
    have hex : ∃ tk', (d1, tk') ∈ pre ++ (d, toks') :: post ∧ tk.Perm tk' := by
      simp only [List.mem_append, List.mem_cons, Prod.mk.injEq] at hmem
      rcases hmem with h | ⟨rfl, rfl⟩ | h
      · exact ⟨tk, by simp [h], List.Perm.refl _⟩
      · exact ⟨toks', by simp, hperm⟩
      · exact ⟨tk, by simp [h], List.Perm.refl _⟩
    obtain ⟨tk', hmem', hp⟩ := hex
    rw [tfAt_build_mem _ hnd d1 tk hmem w, tfAt_build_mem _ hnd' d1 tk' hmem' w,
      hp.countP_eq, hp.length_eq]
  · rw [tfAt_build_not_mem _ d0 hd0 w, tfAt_build_not_mem _ d0 (by rw [hids]; exact hd0) w]

/-- Witness for C14: document `A = c d c` reordered to `d c c`, followed by `B = d d`. -/
theorem C14_word_order_irrelevant_witness :
    ([[99], [100], [99]] : List CString).Perm [[100], [99], [99]] ∧
    ((([] : List (CString × List CString)) ++
      ([65], [[99], [100], [99]]) :: [([66], [[100], [100]])]).map Prod.fst).Nodup ∧
    (∀ doc ∈ ([] : List (CString × List CString)) ++
      ([65], [[99], [100], [99]]) :: [([66], [[100], [100]])], ∀ tok ∈ doc.2, tok ≠ []) ∧
    ∃ t1 t2 : InvertedIndexBST ℚ,
      generateInvertedIndex (([] : List (CString × List CString)) ++
        ([65], [[99], [100], [99]]) :: [([66], [[100], [100]])]) = some t1 ∧
      generateInvertedIndex (([] : List (CString × List CString)) ++
        ([65], [[100], [99], [99]]) :: [([66], [[100], [100]])]) = some t2 ∧
      printInOrder t1 = printInOrder t2 :=
  ⟨by decide, by decide, by decide,
    C14_word_order_irrelevant [] [([66], [[100], [100]])] [65] [[99], [100], [99]]
      [[100], [99], [99]] (by decide) (by decide) (by decide)⟩

/-- C18: for every collection of documents with pairwise distinct identifiers (tokens
non-empty) and every document `d` of it with at least one token, in the tree the builder
returns the sum, over all nodes, of the term frequencies of the node's entries for `d`
(nothing for a node without such an entry) is exactly `1`. -/
theorem C18_tf_sum_one (docs : List (CString × List CString)) (d : CString)
    (toks : List CString) (hnd : (docs.map Prod.fst).Nodup)
    (htok : ∀ doc ∈ docs, ∀ tok ∈ doc.2, tok ≠ []) (hd : (d, toks) ∈ docs)
    (hW : 1 ≤ toks.length) :
    ∃ t : InvertedIndexBST K, generateInvertedIndex docs = some t ∧
      ((printInOrder t).map (fun line =>
        ((line.2.filter (fun e => decide (e.filename = d))).map FileListNode.tf).sum)).sum
        = 1 := by
  refine ⟨insertAll (collectionCalls docs), generateInvertedIndex_eq docs htok, ?_⟩
  rw [sum_lines_eq_sum_keys _ d (BSTInv_insertAll _) (FreqInv_insertAll _)]
  have hterm : ∀ w, (tfAt (insertAll (collectionCalls docs) : InvertedIndexBST K) w d).getD 0 =
      (toks.countP (fun tok => decide (normaliseWord tok = some w)) : K) *
        (1 / (toks.length : K)) := by
    intro w
    rw [tfAt_build_mem docs hnd d toks hd w]
    split_ifs with h0
    · simp [h0]
    · rfl
  simp only [hterm]
  rw [sum_div_nat, sum_countP_eq_length _ (BSTInv_keys_nodup _ (BSTInv_insertAll _)) toks]
  · have hne : (toks.length : K) ≠ 0 := by
      have : toks.length ≠ 0 := by omega
      exact_mod_cast this
    field_simp
  · intro tok ht
    obtain ⟨w, hw⟩ := normaliseWord_isSome tok (htok _ hd tok ht)
    exact ⟨w, (mem_keys_insertAll _ w).mpr
      ((word_mem_collectionCalls docs w).mpr ⟨(d, toks), hd, tok, ht, hw⟩), hw⟩

/-- Witness for C18: documents `A = c d c` and `B = d d`, document `A`. -/
theorem C18_tf_sum_one_witness :
    (([([65], [[99], [100], [99]]), ([66], [[100], [100]])] :
      List (CString × List CString)).map Prod.fst).Nodup ∧
    (∀ doc ∈ ([([65], [[99], [100], [99]]), ([66], [[100], [100]])] :
      List (CString × List CString)), ∀ tok ∈ doc.2, tok ≠ []) ∧
    (([65], [[99], [100], [99]]) : CString × List CString) ∈
      ([([65], [[99], [100], [99]]), ([66], [[100], [100]])] :
        List (CString × List CString)) ∧
    1 ≤ ([[99], [100], [99]] : List CString).length ∧
    ∃ t : InvertedIndexBST ℚ,
      generateInvertedIndex [([65], [[99], [100], [99]]), ([66], [[100], [100]])] = some t ∧
      ((printInOrder t).map (fun line =>
        ((line.2.filter (fun e => decide (e.filename = [65]))).map FileListNode.tf).sum)).sum
        = 1 :=
  ⟨by decide, by decide, by decide, by decide,
    C18_tf_sum_one [([65], [[99], [100], [99]]), ([66], [[100], [100]])] [65]
      [[99], [100], [99]] (by decide) (by decide) (by decide) (by decide)⟩

end Claims

end InvertedIndex
